import Mathlib

/-!
Shallow embedding of the hoordu-plugins fetch state machine.

The definitions below are translated from the Python sources:
  * `Fanbox`   — src/fanbox.py, class CreatorIterator (`_post_iterator`, `fetch`)
  * `Pixiv`    — src/pixiv.py, class IllustIterator (`_iterator`, `fetch`)
  * `Fantia`   — src/fantia.py, class CreatorIterator (`_post_iterator`, `fetch`)
  * `Twitter`  — src/twitter.py, class TweetIterator (`_page_iterator`,
                 `_feed_iterator`, `fetch`)
  * `Downloader` — src/downloader.py (`safe_fetch` and the update-all command)
  * `Materialize` — the per-file download decisions of `Fanbox._to_remote_post`
                 (image branch) and `Fantia._content_to_post` (file category)

Each iterator is modelled as a pure function from a remote feed (a list of
posts, newest first, the order the provider serves them in) and an initial
cursor state to a trace of observable events.  Every trace entry records the
in-memory cursor state at the moment the event happens, so that an
interruption of the generator (an exception, or the caller stopping early)
corresponds exactly to a prefix of the trace.  Timestamps are modelled as
integer seconds (the code formats them at one-second resolution).
-/

namespace HoorduPlugins

/-- Fetch directions, from hoordu.plugins.FetchDirection. -/
inductive FetchDirection where
  | newer
  | older
deriving Repr, DecidableEq

namespace Fanbox

/-- A remote fanbox post as seen by the iterator: its id, its publication
time (integer seconds) and whether its body is accessible (posts the user
has no access to have no body, src/fanbox.py line 115). -/
structure Post where
  id : Int
  publishedDatetime : Int
  hasBody : Bool
deriving Repr, DecidableEq

/-- The persisted cursor state of a fanbox subscription
(src/fanbox.py lines 48-50). -/
structure State where
  head_id : Option Int
  tail_id : Option Int
  tail_datetime : Option Int
deriving Repr, DecidableEq

/-- Observable events of a fanbox fetch. -/
inductive Ev where
  | request (maxId : Option Int) (maxDatetime : Option Int) (pageSize : Nat)
  | yield (postId : Int)
  | commit
  | processed (p : Post)
  | persist (st : State)
deriving Repr, DecidableEq

/-- A trace entry: an event together with the in-memory cursor state at the
moment the event happens. -/
structure Entry where
  ev : Ev
  st : State
deriving Repr, DecidableEq

/-- PAGE_LIMIT, src/fanbox.py line 37. -/
def PAGE_LIMIT : Nat := 10

/-- The post.listCreator endpoint: the feed is served newest first; a maxId
parameter keeps only posts with id less than or equal to it; a page holds at
most `limit` posts; the response carries a nextUrl exactly when more posts
remain after the page. -/
def listCreator (feed : List Post) (limit : Nat) (maxId : Option Int) :
    List Post × Bool :=
  let avail := match maxId with
    | none => feed
    | some m => feed.filter (fun p => p.id ≤ m)
  (avail.take limit, decide (limit < avail.length))

/-- Result of the inner per-page item loop of `_post_iterator`
(src/fanbox.py lines 110-128): the trace produced, the state and the local
variables max_id, max_datetime and total at the end, and whether the
iterator returned (stopping the whole fetch). -/
structure ItemRes where
  tr : List Entry
  st : State
  maxId : Option Int
  maxDt : Option Int
  total : Nat
  stopped : Bool
deriving Repr, DecidableEq

/-- The cursor assignment in the item loop (src/fanbox.py lines 122-124):
in the older direction the processed post becomes the new tail. -/
def updTail (dir : FetchDirection) (st : State) (p : Post) : State :=
  if dir = .older then
    { st with tail_id := some p.id, tail_datetime := some p.publishedDatetime }
  else st

/-- The inner for loop of `_post_iterator` (src/fanbox.py lines 110-128).
For each post: stop if its id reached min_id; yield it when it has a body;
advance the local max_id and max_datetime; in the older direction store the
post as the new tail; stop when the count limit is reached. -/
def itemLoop (dir : FetchDirection) (n : Option Nat) (minId : Option Int) :
    List Post → Option Int → Option Int → Nat → State → ItemRes
  | [], maxId, maxDt, total, st => ⟨[], st, maxId, maxDt, total, false⟩
  | p :: rest, maxId, maxDt, total, st =>
    if (match minId with | some m => decide (p.id ≤ m) | none => false) then
      ⟨[], st, maxId, maxDt, total, true⟩
    else
      let pre : List Entry := if p.hasBody then [⟨.yield p.id, st⟩] else []
      let st1 := updTail dir st p
      let e : Entry := ⟨.processed p, st1⟩
      let total1 := total + 1
      if (match n with | some k => decide (k ≤ total1) | none => false) then
        ⟨pre ++ [e], st1, some (p.id - 1), some p.publishedDatetime, total1, true⟩
      else
        let r := itemLoop dir n minId rest (some (p.id - 1))
          (some p.publishedDatetime) total1 st1
        ⟨pre ++ e :: r.tr, r.st, r.maxId, r.maxDt, r.total, r.stopped⟩

/-- Result of the page loop: trace, final state and the first_id attribute. -/
structure PageRes where
  tr : List Entry
  st : State
  firstId : Option Int
deriving Repr, DecidableEq

/-- Page size computation, src/fanbox.py line 85. -/
def pageSizeOf (n : Option Nat) (total : Nat) : Nat :=
  match n with
  | none => PAGE_LIMIT
  | some k => min (k - total) PAGE_LIMIT

/-- The outer while loop of `_post_iterator` (src/fanbox.py lines 84-133),
with the recursion bounded by a page-count fuel.  Each round requests one
page (sending maxId minus one and the tail datetime minus one second when a
max_id is held, lines 92-97), remembers the first post of the first page as
the candidate new head (lines 107-108), runs the item loop, and continues to
the next page while a nextUrl is present. -/
def pageLoop (feed : List Post) (dir : FetchDirection) (n : Option Nat)
    (minId : Option Int) :
    Nat → Option Int → Option Int → Nat → Bool → State → Option Int → PageRes
  | 0, _, _, _, _, st, firstId => ⟨[], st, firstId⟩
  | fuel + 1, maxId, maxDt, total, firstIter, st, firstId =>
    let psize := pageSizeOf n total
    let maxIdParam := maxId.map (fun m => m - 1)
    let maxDtParam := maxDt.map (fun d => d - 1)
    let page := listCreator feed psize maxIdParam
    let req : Entry := ⟨.request maxIdParam maxDtParam psize, st⟩
    match page.1 with
    | [] => ⟨[req], st, firstId⟩
    | p0 :: _ =>
      let firstId1 :=
        if firstIter ∧ (st.head_id = none ∨ dir = .newer) then some p0.id
        else firstId
      let r := itemLoop dir n minId page.1 maxId maxDt total st
      if r.stopped ∨ page.2 = false then
        ⟨req :: r.tr, r.st, firstId1⟩
      else
        let r2 := pageLoop feed dir n minId fuel r.maxId r.maxDt r.total
          false r.st firstId1
        ⟨req :: r.tr ++ r2.tr, r2.st, r2.firstId⟩

/-- Direction and count adjustment at the top of `fetch`
(src/fanbox.py lines 136-140): a newer fetch with no tail yet is downgraded
to older keeping `n`; a newer fetch with a tail discards `n`. -/
def fetchDowngrade (st : State) (dir : FetchDirection) (n : Option Nat) :
    FetchDirection × Option Nat :=
  match dir with
  | .newer => if st.tail_id = none then (.older, n) else (.newer, none)
  | .older => (.older, n)

/-- The transaction commit that follows each yielded post in `fetch`
(src/fanbox.py lines 142-149): the session is committed after the consumer
received the post, before the iterator advances past it. -/
def insertCommits (tr : List Entry) : List Entry :=
  tr.flatMap (fun e => match e.ev with
    | .yield _ => [e, ⟨.commit, e.st⟩]
    | _ => [e])

/-- Result of a whole fetch: its trace and the final cursor state. -/
structure FetchRes where
  tr : List Entry
  st : State
deriving Repr, DecidableEq

/-- The generator part of `CreatorIterator.fetch`: direction and count
adjustment followed by the `_post_iterator` page loop with the cursor
boundaries of src/fanbox.py lines 76-80.  An interrupted fetch has executed
a prefix of this trace (with the commits of `insertCommits` interleaved)
and nothing else. -/
def fetchCore (feed : List Post) (dir : FetchDirection) (n : Option Nat)
    (st : State) : PageRes :=
  let dn := fetchDowngrade st dir n
  let dir1 := dn.1
  let n1 := dn.2
  let head := dir1 = .newer
  let minId := if head then st.head_id else none
  let maxId := if head then none else st.tail_id
  let maxDt := if head then none else st.tail_datetime
  pageLoop feed dir1 n1 minId (feed.length + 1) maxId maxDt 0 true st none

/-- `CreatorIterator.fetch` (src/fanbox.py lines 135-159): adjust direction
and count, run `_post_iterator` committing after every yielded post, then at
the very end move first_id into head_id (lines 151-153), persist the state
onto the subscription when there is one (lines 155-157) and commit
(line 159). -/
def fetch (feed : List Post) (dir : FetchDirection) (n : Option Nat)
    (hasSub : Bool) (st : State) : FetchRes :=
  let r := fetchCore feed dir n st
  let trC := insertCommits r.tr
  let st2 := match r.firstId with
    | some f => { r.st with head_id := some f }
    | none => r.st
  let finalTr := (if hasSub then [⟨.persist st2, st2⟩] else []) ++ [⟨.commit, st2⟩]
  ⟨trC ++ finalTr, st2⟩

/-- The ids yielded to the materializer along a trace. -/
def yieldsOf (tr : List Entry) : List Int :=
  tr.filterMap (fun e => match e.ev with | .yield i => some i | _ => none)

/-- The posts the iterator advanced past along a trace. -/
def processedOf (tr : List Entry) : List Post :=
  tr.filterMap (fun e => match e.ev with | .processed p => some p | _ => none)

/-- The page request parameters (maxId, maxPublishedDatetime, limit) sent
along a trace. -/
def requestsOf (tr : List Entry) : List (Option Int × Option Int × Nat) :=
  tr.filterMap (fun e => match e.ev with
    | .request a b c => some (a, b, c)
    | _ => none)

end Fanbox

namespace Pixiv

/-- The persisted cursor state of a pixiv illust subscription
(src/pixiv.py lines 55-56). -/
structure State where
  head_id : Option Int
  tail_id : Option Int
deriving Repr, DecidableEq

/-- Observable events of a pixiv IllustIterator fetch. -/
inductive Ev where
  | headInit (postId : Int)
  | yield (postId : Int)
  | commit
  | update (postId : Int)
  | persist (st : State)
deriving Repr, DecidableEq

/-- A trace entry: an event with the in-memory state right after it. -/
structure Entry where
  ev : Ev
  st : State
deriving Repr, DecidableEq

/-- Ascending sort used by `sorted(...)` in src/pixiv.py line 77. -/
def sortedAsc (l : List Int) : List Int :=
  List.insertionSort (fun a b => a ≤ b) l

/-- Descending sort used by `sorted(..., reverse=True)` in src/pixiv.py
lines 74 and 80. -/
def sortedDesc (l : List Int) : List Int :=
  List.insertionSort (fun a b => b ≤ a) l

/-- Direction adjustment and post-id selection of `IllustIterator._iterator`
(src/pixiv.py lines 72-83): with no tail yet the direction becomes older and
every post is listed newest first; a newer fetch keeps the ids above head in
ascending order; an older fetch keeps the ids below tail in descending
order.  The source compares ids against `self.state.head_id`
(respectively `tail_id`) and assumes it is set in that branch. -/
def iterPosts (apiPosts : List Int) (dir : FetchDirection) (st : State) :
    FetchDirection × List Int :=
  if st.tail_id = none then (.older, sortedDesc apiPosts)
  else match dir with
    | .newer => (.newer, sortedAsc (apiPosts.filter
        (fun i => match st.head_id with
          | some h => decide (h < i)
          | none => false)))
    | .older => (.older, sortedDesc (apiPosts.filter
        (fun i => match st.tail_id with
          | some t => decide (i < t)
          | none => false)))

/-- The item loop of `IllustIterator._iterator` together with the commit of
`fetch` it is interleaved with (src/pixiv.py lines 85-104 and 106-116):
per post, head_id is first set if it was still None (lines 95-96), the post
is materialized and yielded, the session committed (line 116), and then the
cursor is advanced incrementally — head_id for a newer fetch, tail_id for an
older one (lines 101-104). -/
def itemsLoop (dir : FetchDirection) : List Int → State → List Entry × State
  | [], st => ([], st)
  | p :: rest, st =>
    let st1 := if st.head_id = none then { st with head_id := some p } else st
    let st2 := if dir = .newer then { st1 with head_id := some p }
      else { st1 with tail_id := some p }
    let pre : List Entry :=
      if st.head_id = none then [⟨.headInit p, st1⟩] else []
    let r := itemsLoop dir rest st2
    (pre ++ ⟨.yield p, st1⟩ :: ⟨.commit, st1⟩ :: ⟨.update p, st2⟩ :: r.1, r.2)

/-- `IllustIterator.fetch` (src/pixiv.py lines 106-120): run the item loop
committing after each yielded post, then persist the state onto the
subscription when there is one (no final commit in this plugin). -/
def fetch (apiPosts : List Int) (dir : FetchDirection) (n : Option Nat)
    (hasSub : Bool) (st : State) : List Entry × State :=
  let dp := iterPosts apiPosts dir st
  let posts := match n with | some k => dp.2.take k | none => dp.2
  let r := itemsLoop dp.1 posts st
  let finalTr : List Entry := if hasSub then [⟨.persist r.2, r.2⟩] else []
  (r.1 ++ finalTr, r.2)

end Pixiv

namespace Fantia

/-- A remote fantia post: its id and the number of remote posts its visible
contents materialize into (`_to_remote_posts` yields one local record per
visible content, src/fantia.py lines 355-388). -/
structure Post where
  id : Int
  numRemote : Nat
deriving Repr, DecidableEq

/-- The persisted cursor state of a fantia subscription. -/
structure State where
  head_id : Option Int
  tail_id : Option Int
deriving Repr, DecidableEq

/-- Observable events of a fantia fetch.  A yield event names the source
post id and the index of the materialized record within that post. -/
inductive Ev where
  | yield (postId : Int) (k : Nat)
  | commit
  | update (postId : Int)
  | persist (st : State)
deriving Repr, DecidableEq

/-- A trace entry: an event with the in-memory state at that moment. -/
structure Entry where
  ev : Ev
  st : State
deriving Repr, DecidableEq

/-- Position of the post carrying a given id in the feed (the feed is
ordered oldest first; post.links.next is the next-newer post and
post.links.previous the next-older one). -/
def findIdx (feed : List Post) (i : Int) : Option Nat :=
  feed.findIdx? (fun p => p.id = i)

/-- The iteration loop of `CreatorIterator.fetch` combined with
`_post_iterator` (src/fantia.py lines 70-89 and 95-104): for up to `n`
posts (unlimited when `n` is None), fetch the post at the current chain
position, yield one materialized record per visible content, commit once,
then advance head_id (newer) or tail_id (older) to this post and follow the
next/previous link, stopping when it is absent. -/
def fetchLoop (feed : List Post) (dir : FetchDirection) :
    Nat → Nat → Option Nat → State → List Entry × State
  | 0, _, _, st => ([], st)
  | fuel + 1, pos, budget, st =>
    if budget = some 0 then ([], st)
    else match feed.get? pos with
    | none => ([], st)
    | some post =>
      let yields : List Entry :=
        (List.range post.numRemote).map (fun k => ⟨.yield post.id k, st⟩)
      let st1 := if dir = .newer then { st with head_id := some post.id }
        else { st with tail_id := some post.id }
      let step : List Entry := yields ++ [⟨.commit, st⟩, ⟨.update post.id, st1⟩]
      let budget1 := budget.map (fun b => b - 1)
      let hasNext := if dir = .newer then pos + 1 < feed.length else 0 < pos
      if hasNext then
        let pos1 := if dir = .newer then pos + 1 else pos - 1
        let r := fetchLoop feed dir fuel pos1 budget1 st1
        (step ++ r.1, r.2)
      else (step, st1)

/-- The cursor initialization of `_post_iterator` (src/fantia.py
lines 42-68): with no cursor yet, both head and tail are set at once to the
newest post of the fanclub and iteration starts there; otherwise iteration
starts at the link following the stored cursor post, and the fetch yields
nothing when that link is absent.  Returns the start position together with
the possibly updated state, or none when the iterator returns at once. -/
def iterInit (feed : List Post) (dir : FetchDirection) (st : State) :
    Option (Nat × State) :=
  let postId := if dir = .newer then st.head_id else st.tail_id
  match postId with
  | none =>
    match feed.getLast? with
    | none => none
    | some newest =>
      some (feed.length - 1,
        { st with head_id := some newest.id, tail_id := some newest.id })
  | some pid =>
    match findIdx feed pid with
    | none => none
    | some pos =>
      match dir with
      | .newer => if pos + 1 < feed.length then some (pos + 1, st) else none
      | .older => if 0 < pos then some (pos - 1, st) else none

/-- `CreatorIterator.fetch` (src/fantia.py lines 91-108): the direction is
downgraded to older whenever no tail exists (line 92-93, keeping `n`); the
loop runs; at the end the state is persisted onto the subscription (added to
the session) with no final commit. -/
def fetch (feed : List Post) (dir : FetchDirection) (n : Option Nat)
    (hasSub : Bool) (st : State) : List Entry × State :=
  let dir1 := if st.tail_id = none then FetchDirection.older else dir
  match iterInit feed dir1 st with
  | none =>
    let finalTr : List Entry := if hasSub then [⟨.persist st, st⟩] else []
    (finalTr, st)
  | some ps =>
    let r := fetchLoop feed dir1 (feed.length + 1) ps.1 n ps.2
    let finalTr : List Entry := if hasSub then [⟨.persist r.2, r.2⟩] else []
    (r.1 ++ finalTr, r.2)

end Fantia

namespace Twitter

/-- A tweet as seen by the iterator: its id and whether it has any media or
url content (`_tweet_has_content`, src/twitter.py lines 149-159). -/
structure Tweet where
  id : Int
  hasContent : Bool
deriving Repr, DecidableEq

/-- The persisted cursor state of a twitter subscription
(src/twitter.py lines 79-80). -/
structure State where
  head_id : Option Int
  tail_id : Option Int
deriving Repr, DecidableEq

/-- PAGE_LIMIT, src/twitter.py. -/
def PAGE_LIMIT : Nat := 200

/-- Items produced by `_page_iterator`: the page requests it makes and the
tweets it yields. -/
inductive Item where
  | request (maxId : Option Int) (count : Nat)
  | tweet (t : Tweet)
deriving Repr, DecidableEq

/-- Observable events of a twitter fetch. -/
inductive Ev where
  | request (maxId : Option Int) (count : Nat)
  | yield (tweetId : Int)
  | commit
  | processed (t : Tweet)
  | persist (st : State)
deriving Repr, DecidableEq

/-- A trace entry: an event with the in-memory state at that moment. -/
structure Entry where
  ev : Ev
  st : State
deriving Repr, DecidableEq

/-- GetUserTimeline: the feed is served newest first; since_id keeps only
strictly greater ids, max_id keeps only ids less than or equal to it
(src/twitter.py line 116), and a page holds at most `count` tweets. -/
def getUserTimeline (feed : List Tweet) (count : Nat) (maxId sinceId : Option Int) :
    List Tweet :=
  ((feed.filter (fun t =>
    (match sinceId with | none => true | some s => decide (s < t.id)) &&
    (match maxId with | none => true | some m => decide (t.id ≤ m)))).take count)

/-- The per-page for loop of `_page_iterator` (src/twitter.py
lines 101-107): yield each tweet, move max_id to the tweet id minus one and
count it, returning early (continuation none) once the limit is reached;
otherwise hand back the updated max_id and total. -/
def pageItems (limit : Option Nat) :
    List Tweet → Option Int → Nat → List Item × Option (Option Int × Nat)
  | [], maxId, total => ([], some (maxId, total))
  | t :: rest, _, total =>
    let total1 := total + 1
    if (match limit with | some l => decide (l ≤ total1) | none => false) then
      ([Item.tweet t], none)
    else
      let r := pageItems limit rest (some (t.id - 1)) total1
      (Item.tweet t :: r.1, r.2)

/-- `TweetIterator._page_iterator` (src/twitter.py lines 92-107): request
pages repeatedly, running the per-page loop, until a page comes back empty
or the loop reports the limit was reached. -/
def pageIterator (feed : List Tweet) (limit : Option Nat) (count : Nat)
    (sinceId : Option Int) :
    Nat → Option Int → Nat → List Item
  | 0, _, _ => []
  | fuel + 1, maxId, total =>
    let tweets := getUserTimeline feed count maxId sinceId
    let req := Item.request maxId count
    match tweets with
    | [] => [req]
    | _ =>
      let g := pageItems limit tweets maxId total
      match g.2 with
      | none => req :: g.1
      | some mt =>
        req :: g.1 ++ pageIterator feed limit count sinceId fuel mt.1 mt.2

/-- The parameter block of `_feed_iterator` (src/twitter.py lines 109-118):
page size is PAGE_LIMIT capped by the limit, since_id is the head for a
newer fetch, max_id is the tail minus one for an older fetch (the remote
treats max_id inclusively). -/
def feedIterator (feed : List Tweet) (dir : FetchDirection)
    (limit : Option Nat) (st : State) : List Item :=
  let pageSize := match limit with
    | none => PAGE_LIMIT
    | some l => min l PAGE_LIMIT
  let sinceId := if dir = .newer then st.head_id else none
  let maxId0 := if dir = .newer then none else st.tail_id
  let maxId := maxId0.map (fun m => m - 1)
  pageIterator feed limit pageSize sinceId (feed.length + 1) maxId 0

/-- The body of `TweetIterator.fetch` folded over the stream of items
(src/twitter.py lines 171-188): the first tweet seen becomes the candidate
head when there was none or the fetch goes newer; tweets with content are
materialized, yielded and committed; every tweet, content or not, advances
the tail in the older direction. -/
def fetchEvents (dir : FetchDirection) :
    List Item → State → Option Int → Bool → List Entry × State × Option Int
  | [], st, firstId, _ => ([], st, firstId)
  | .request m c :: rest, st, firstId, firstIter =>
    let r := fetchEvents dir rest st firstId firstIter
    (⟨.request m c, st⟩ :: r.1, r.2)
  | .tweet t :: rest, st, firstId, firstIter =>
    let firstId1 :=
      if firstIter ∧ (st.head_id = none ∨ dir = .newer) then some t.id
      else firstId
    let content : List Entry :=
      if t.hasContent then [⟨.yield t.id, st⟩, ⟨.commit, st⟩] else []
    let st1 := if dir = .older then { st with tail_id := some t.id } else st
    let r := fetchEvents dir rest st1 firstId1 false
    (content ++ ⟨.processed t, st1⟩ :: r.1, r.2)

/-- Direction and limit adjustment at the top of `TweetIterator.fetch`
(src/twitter.py lines 162-167). -/
def fetchAdjust (st : State) (dir : FetchDirection) (n : Option Nat) :
    FetchDirection × Option Nat :=
  match dir with
  | .newer => if st.tail_id = none then (.older, n) else (.newer, none)
  | .older => (.older, n)

/-- `TweetIterator.fetch` (src/twitter.py lines 161-196): adjust direction
and limit (lines 163-167), walk the feed iterator, then move first_id into
head_id (lines 190-192) and persist the state onto the subscription
(lines 194-196, added to the session with no commit). -/
def fetch (feed : List Tweet) (dir : FetchDirection) (n : Option Nat)
    (hasSub : Bool) (st : State) : List Entry × State :=
  let dl := fetchAdjust st dir n
  let items := feedIterator feed dl.1 dl.2 st
  let r := fetchEvents dl.1 items st none true
  let st2 := match r.2.2 with
    | some f => { r.2.1 with head_id := some f }
    | none => r.2.1
  let finalTr : List Entry := if hasSub then [⟨.persist st2, st2⟩] else []
  (r.1 ++ finalTr, st2)

/-- The ids yielded to the materializer along a trace. -/
def yieldsOf (tr : List Entry) : List Int :=
  tr.filterMap (fun e => match e.ev with | .yield i => some i | _ => none)

/-- The tweets the iterator advanced past along a trace. -/
def processedOf (tr : List Entry) : List Tweet :=
  tr.filterMap (fun e => match e.ev with | .processed t => some t | _ => none)

/-- The page request parameters (max_id, count) sent along a trace. -/
def requestsOf (tr : List Entry) : List (Option Int × Nat) :=
  tr.filterMap (fun e => match e.ev with
    | .request m c => some (m, c)
    | _ => none)

end Twitter

namespace Downloader

/-- What the user answers at the safe_fetch prompt
(src/downloader.py lines 149-167): y retries, d disables, anything else
re-raises. -/
inductive Choice where
  | retry
  | disable
  | propagate
deriving Repr, DecidableEq

/-- One invocation of `it.fetch` inside safe_fetch, abstracted to what the
wrapper observes: the ids it yields before finishing, and, when it fails,
the choice the user makes at the prompt (none means the fetch completed). -/
structure Attempt where
  yields : List Int
  err : Option Choice
deriving Repr, DecidableEq

/-- Observable actions of the safe_fetch wrapper and the update-all sweep. -/
inductive Ev where
  | fetchCall (n : Option Int)
  | prompt
  | flush
  | rollback
  | setEnabled (b : Bool)
  | commit
deriving Repr, DecidableEq

/-- How a safe_fetch call ends: with the collected posts, by disabling the
subscription, or by re-raising the error. -/
inductive Result where
  | done (posts : List Int)
  | disabled
  | raised
deriving Repr, DecidableEq

/-- The posts dictionary of safe_fetch (src/downloader.py line 137): keyed
by remote post id, so re-yielded ids are not counted twice. -/
def dictInsert (d : List Int) (i : Int) : List Int :=
  if i ∈ d then d else d ++ [i]

/-- Insert every yielded id into the posts dictionary. -/
def dictInsertMany (d : List Int) (l : List Int) : List Int :=
  l.foldl dictInsert d

/-- `safe_fetch` (src/downloader.py lines 132-167) for a subscription-bound
iterator, driven by a script of attempt outcomes: each round calls fetch
accumulating yielded posts; on success the posts are returned; on error the
user is prompted; retry flushes and loops with `n` lowered by the number of
posts accumulated so far; disable rolls back, switches the subscription's
enabled flag off, commits and stops; anything else re-raises. -/
def safeFetch : List Attempt → Option Int → List Int → List Ev × Result
  | [], _, _ => ([], .raised)
  | a :: rest, n, posts =>
    let posts1 := dictInsertMany posts a.yields
    match a.err with
    | none => ([.fetchCall n], .done posts1)
    | some .retry =>
      let n1 := n.map (fun k => k - (posts1.length : Int))
      let r := safeFetch rest n1 posts1
      (Ev.fetchCall n :: Ev.prompt :: Ev.flush :: r.1, r.2)
    | some .disable =>
      ([.fetchCall n, .prompt, .rollback, .setEnabled false, .commit], .disabled)
    | some .propagate => ([.fetchCall n, .prompt], .raised)

/-- A subscription as the update-all sweep sees it: its enabled flag and
the script of what happens when it is fetched. -/
structure Sub where
  enabled : Bool
  script : List Attempt
deriving Repr, DecidableEq

/-- The update-all command (src/downloader.py lines 239-251): walk every
subscription of the source; the disabled ones are skipped entirely; for an
enabled one, run safe_fetch with direction newer and no count, commit when
it returns, roll back when it raises, and in every case continue with the
remaining subscriptions.  Returns the per-subscription event lists (empty
for skipped ones) and the subscriptions afterwards (the enabled flag drops
to false when safe_fetch disabled one). -/
def updateAll : List Sub → List (List Ev) × List Sub
  | [] => ([], [])
  | s :: rest =>
    let r := updateAll rest
    if s.enabled then
      let f := safeFetch s.script none []
      match f.2 with
      | .raised => ((f.1 ++ [Ev.rollback]) :: r.1, s :: r.2)
      | .disabled => ((f.1 ++ [Ev.commit]) :: r.1, { s with enabled := false } :: r.2)
      | .done _ => ((f.1 ++ [Ev.commit]) :: r.1, s :: r.2)
    else ([] :: r.1, s :: r.2)

end Downloader

namespace Materialize

/-- A File row as the materializer sees it: the two presence flags, the
position key and the metadata tag. -/
structure FileRec where
  present : Bool
  thumb_present : Bool
  remote_order : Nat
  metadata : String
deriving Repr, DecidableEq

/-- What the per-file handling did: whether the original was downloaded,
whether the thumbnail was downloaded, and whether import_file was called. -/
structure Downloads where
  orig : Bool
  thumb : Bool
  imported : Bool
deriving Repr, DecidableEq

/-- The per-image file handling of `Fanbox._to_remote_post`
(src/fanbox.py lines 310-333): a missing File row is created for the
position with both flags off, an existing one only has its remote_order
refreshed; the original is downloaded when not present and not in preview
mode, the thumbnail when not thumb_present, and import_file runs only when
one of the two is needed. -/
def fanboxImageFile (existing : Option FileRec) (order : Nat) (id : String)
    (preview : Bool) : FileRec × Downloads :=
  let file := match existing with
    | none =>
      { present := false, thumb_present := false, remote_order := order,
        metadata := id }
    | some f => { f with remote_order := order }
  let need_orig := !file.present && !preview
  let need_thumb := !file.thumb_present
  if need_thumb || need_orig then
    (file, { orig := need_orig, thumb := need_thumb, imported := true })
  else
    (file, { orig := false, thumb := false, imported := false })

/-- The file-category handling of `Fantia._content_to_post`
(src/fantia.py lines 246-268): the existing File row (position 0) is reused
untouched when present; the original is downloaded when not present and not
in preview mode, the thumbnail when not thumb_present and the post has a
thumbnail url, and import_file runs only when one of the two is needed. -/
def fantiaFileContent (existing : Option FileRec) (hasThumbUrl : Bool)
    (preview : Bool) : FileRec × Downloads :=
  let file := match existing with
    | none =>
      { present := false, thumb_present := false, remote_order := 0,
        metadata := "" }
    | some f => f
  let need_orig := !file.present && !preview
  let need_thumb := !file.thumb_present
  if need_orig || need_thumb then
    (file, { orig := need_orig, thumb := need_thumb && hasThumbUrl,
             imported := true })
  else
    (file, { orig := false, thumb := false, imported := false })

end Materialize

namespace Fanbox

theorem insertCommits_state_pred (P : State → Prop) (tr : List Entry)
    (h : ∀ e ∈ tr, P e.st) : ∀ e ∈ insertCommits tr, P e.st := by
  intro e he
  simp only [insertCommits, List.mem_flatMap] at he
  obtain ⟨e0, he0, hm⟩ := he
  have hP := h e0 he0
  cases hev : e0.ev <;> simp [hev] at hm
  case yield i =>
    rcases hm with hm | hm <;> subst hm
    · exact hP
    · exact hP
  all_goals (subst hm; exact hP)

theorem processedOf_insertCommits (tr : List Entry) :
    processedOf (insertCommits tr) = processedOf tr := by
  induction tr with
  | nil => rfl
  | cons e rest ih =>
    simp only [insertCommits, List.flatMap_cons] at *
    cases hev : e.ev <;>
      simp [processedOf, List.filterMap_append, hev] at * <;>
      simpa [processedOf] using ih

theorem yieldsOf_insertCommits (tr : List Entry) :
    yieldsOf (insertCommits tr) = yieldsOf tr := by
  induction tr with
  | nil => rfl
  | cons e rest ih =>
    simp only [insertCommits, List.flatMap_cons] at *
    cases hev : e.ev <;>
      simp [yieldsOf, List.filterMap_append, hev] at * <;>
      simpa [yieldsOf] using ih

theorem requestsOf_insertCommits (tr : List Entry) :
    requestsOf (insertCommits tr) = requestsOf tr := by
  induction tr with
  | nil => rfl
  | cons e rest ih =>
    simp only [insertCommits, List.flatMap_cons] at *
    cases hev : e.ev <;>
      simp [requestsOf, List.filterMap_append, hev] at * <;>
      simpa [requestsOf] using ih

theorem updTail_head (dir : FetchDirection) (st : State) (p : Post) :
    (updTail dir st p).head_id = st.head_id := by
  unfold updTail; split <;> rfl

theorem itemLoop_head (dir : FetchDirection) (n : Option Nat) (minId : Option Int) :
    ∀ (posts : List Post) (maxId maxDt : Option Int) (total : Nat) (st : State),
      (∀ e ∈ (itemLoop dir n minId posts maxId maxDt total st).tr,
        e.st.head_id = st.head_id) ∧
      (itemLoop dir n minId posts maxId maxDt total st).st.head_id = st.head_id := by
  intro posts
  induction posts with
  | nil => intro maxId maxDt total st; simp [itemLoop]
  | cons p rest ih =>
    intro maxId maxDt total st
    simp only [itemLoop]
    split
    · simp
    · split
      · constructor
        · intro e he
          rcases List.mem_append.mp he with h1 | h1
          · split at h1 <;> simp at h1
            simp [h1]
          · simp at h1
            simp [h1, updTail_head]
        · exact updTail_head dir st p
      · obtain ⟨ihTr, ihSt⟩ := ih (some (p.id - 1)) (some p.publishedDatetime)
          (total + 1) (updTail dir st p)
        constructor
        · intro e he
          rcases List.mem_append.mp he with h1 | h1
          · split at h1 <;> simp at h1
            simp [h1]
          · rcases List.mem_cons.mp h1 with h2 | h2
            · simp [h2, updTail_head]
            · rw [ihTr e h2]; exact updTail_head dir st p
        · rw [ihSt]; exact updTail_head dir st p

theorem pageLoop_head (feed : List Post) (dir : FetchDirection) (n : Option Nat)
    (minId : Option Int) :
    ∀ (fuel : Nat) (maxId maxDt : Option Int) (total : Nat) (firstIter : Bool)
      (st : State) (firstId : Option Int),
      (∀ e ∈ (pageLoop feed dir n minId fuel maxId maxDt total firstIter st firstId).tr,
        e.st.head_id = st.head_id) ∧
      (pageLoop feed dir n minId fuel maxId maxDt total firstIter st firstId).st.head_id
        = st.head_id := by
  intro fuel
  induction fuel with
  | zero => intro maxId maxDt total firstIter st firstId; simp [pageLoop]
  | succ fuel ih =>
    intro maxId maxDt total firstIter st firstId
    simp only [pageLoop]
    split
    · simp
    · rename_i p0 rest hpage
      obtain ⟨itemTr, itemSt⟩ := itemLoop_head dir n minId
        ((listCreator feed (pageSizeOf n total) (maxId.map (fun m => m - 1))).1)
        maxId maxDt total st
      split
      · constructor
        · intro e he
          rcases List.mem_cons.mp he with h1 | h1
          · simp [h1]
          · exact itemTr e h1
        · exact itemSt
      · obtain ⟨recTr, recSt⟩ := ih
          (itemLoop dir n minId
            ((listCreator feed (pageSizeOf n total) (maxId.map (fun m => m - 1))).1)
            maxId maxDt total st).maxId
          (itemLoop dir n minId
            ((listCreator feed (pageSizeOf n total) (maxId.map (fun m => m - 1))).1)
            maxId maxDt total st).maxDt
          (itemLoop dir n minId
            ((listCreator feed (pageSizeOf n total) (maxId.map (fun m => m - 1))).1)
            maxId maxDt total st).total
          false
          (itemLoop dir n minId
            ((listCreator feed (pageSizeOf n total) (maxId.map (fun m => m - 1))).1)
            maxId maxDt total st).st
          (if firstIter ∧ (st.head_id = none ∨ dir = FetchDirection.newer)
            then some p0.id else firstId)
        constructor
        · intro e he
          rcases List.mem_cons.mp he with h1 | h1
          · simp [h1]
          · rcases List.mem_append.mp h1 with h2 | h2
            · exact itemTr e h2
            · rw [recTr e h2]; exact itemSt
        · rw [recSt]; exact itemSt

theorem insertCommits_mem (tr : List Entry) :
    ∀ e ∈ insertCommits tr, e ∈ tr ∨ e.ev = Ev.commit := by
  intro e he
  simp only [insertCommits, List.mem_flatMap] at he
  obtain ⟨e0, he0, hm⟩ := he
  cases hev : e0.ev <;> simp [hev] at hm
  case yield i =>
    rcases hm with hm | hm
    · subst hm; exact Or.inl he0
    · subst hm; exact Or.inr rfl
  all_goals (subst hm; exact Or.inl he0)

theorem itemLoop_processed_tail (n : Option Nat) (minId : Option Int) :
    ∀ (posts : List Post) (maxId maxDt : Option Int) (total : Nat) (st : State),
      ∀ e ∈ (itemLoop .older n minId posts maxId maxDt total st).tr,
        ∀ p, e.ev = Ev.processed p →
          e.st.tail_id = some p.id ∧
          e.st.tail_datetime = some p.publishedDatetime := by
  intro posts
  induction posts with
  | nil => intro maxId maxDt total st e he; simp [itemLoop] at he
  | cons q rest ih =>
    intro maxId maxDt total st e he p hev
    simp only [itemLoop] at he
    split at he
    · simp at he
    · split at he
      · rcases List.mem_append.mp he with h1 | h1
        · split at h1 <;> simp at h1
          rw [h1] at hev; simp at hev
        · simp at h1
          rw [h1] at hev ⊢
          simp at hev
          subst hev
          simp [updTail]
      · rcases List.mem_append.mp he with h1 | h1
        · split at h1 <;> simp at h1
          rw [h1] at hev; simp at hev
        · rcases List.mem_cons.mp h1 with h2 | h2
          · rw [h2] at hev ⊢
            simp at hev
            subst hev
            simp [updTail]
          · exact ih _ _ _ _ e h2 p hev

theorem pageLoop_processed_tail (feed : List Post) (n : Option Nat)
    (minId : Option Int) :
    ∀ (fuel : Nat) (maxId maxDt : Option Int) (total : Nat) (firstIter : Bool)
      (st : State) (firstId : Option Int),
      ∀ e ∈ (pageLoop feed .older n minId fuel maxId maxDt total firstIter st
        firstId).tr,
        ∀ p, e.ev = Ev.processed p →
          e.st.tail_id = some p.id ∧
          e.st.tail_datetime = some p.publishedDatetime := by
  intro fuel
  induction fuel with
  | zero => intro maxId maxDt total firstIter st firstId e he; simp [pageLoop] at he
  | succ fuel ih =>
    intro maxId maxDt total firstIter st firstId e he p hev
    simp only [pageLoop] at he
    split at he
    · simp at he
      rw [he] at hev; simp at hev
    · split at he
      · rcases List.mem_cons.mp he with h1 | h1
        · rw [h1] at hev; simp at hev
        · exact itemLoop_processed_tail n minId _ _ _ _ _ e h1 p hev
      · rcases List.mem_cons.mp he with h1 | h1
        · rw [h1] at hev; simp at hev
        · rcases List.mem_append.mp h1 with h2 | h2
          · exact itemLoop_processed_tail n minId _ _ _ _ _ e h2 p hev
          · exact ih _ _ _ _ _ _ e h2 p hev

theorem itemLoop_yields (dir : FetchDirection) (n : Option Nat) (minId : Option Int) :
    ∀ (posts : List Post) (maxId maxDt : Option Int) (total : Nat) (st : State),
      yieldsOf (itemLoop dir n minId posts maxId maxDt total st).tr =
        ((processedOf (itemLoop dir n minId posts maxId maxDt total st).tr).filter
          (fun p => p.hasBody)).map (fun p => p.id) := by
  intro posts
  induction posts with
  | nil => intro maxId maxDt total st; simp [itemLoop, yieldsOf, processedOf]
  | cons q rest ih =>
    intro maxId maxDt total st
    simp only [itemLoop]
    split
    · simp [yieldsOf, processedOf]
    · split
      · cases hb : q.hasBody <;>
          simp [hb, yieldsOf, processedOf, List.filterMap_append]
      · cases hb : q.hasBody <;>
          simp [hb, yieldsOf, processedOf, List.filterMap_append] <;>
          have := ih (some (q.id - 1)) (some q.publishedDatetime) (total + 1)
            (updTail dir st q) <;>
          simpa [yieldsOf, processedOf] using this

theorem itemLoop_processed_sublist (dir : FetchDirection) (n : Option Nat)
    (minId : Option Int) :
    ∀ (posts : List Post) (maxId maxDt : Option Int) (total : Nat) (st : State),
      List.Sublist
        (processedOf (itemLoop dir n minId posts maxId maxDt total st).tr) posts := by
  intro posts
  induction posts with
  | nil => intro maxId maxDt total st; simp [itemLoop, processedOf]
  | cons q rest ih =>
    intro maxId maxDt total st
    simp only [itemLoop]
    split
    · simp [processedOf]
    · split
      · cases hb : q.hasBody <;>
          simp [hb, processedOf, List.filterMap_append]
      · cases hb : q.hasBody <;>
          simp [hb, processedOf, List.filterMap_append] <;>
          exact ih (some (q.id - 1)) (some q.publishedDatetime) (total + 1)
            (updTail dir st q)

theorem itemLoop_not_stopped (dir : FetchDirection) (n : Option Nat)
    (minId : Option Int) :
    ∀ (posts : List Post) (maxId maxDt : Option Int) (total : Nat) (st : State),
      (itemLoop dir n minId posts maxId maxDt total st).stopped = false →
      processedOf (itemLoop dir n minId posts maxId maxDt total st).tr = posts ∧
      (itemLoop dir n minId posts maxId maxDt total st).maxId =
        (match posts.getLast? with
          | some q => some (q.id - 1)
          | none => maxId) := by
  intro posts
  induction posts with
  | nil => intro maxId maxDt total st _; simp [itemLoop, processedOf]
  | cons q rest ih =>
    intro maxId maxDt total st hstop
    simp only [itemLoop] at hstop ⊢
    split at hstop
    · simp at hstop
    · split at hstop
      · simp at hstop
      · rename_i hmin hn
        rw [if_neg (by simpa using hmin), if_neg (by simpa using hn)]
        obtain ⟨ihp, ihm⟩ := ih (some (q.id - 1)) (some q.publishedDatetime)
          (total + 1) (updTail dir st q) hstop
        constructor
        · cases hb : q.hasBody <;>
            simp [hb, processedOf, List.filterMap_append] at ihp ⊢ <;>
            exact ihp
        · cases rest with
          | nil => simpa using ihm
          | cons r rs => simpa [List.getLast?_cons_cons] using ihm

theorem listCreator_sublist (feed : List Post) (limit : Nat) (maxId : Option Int) :
    List.Sublist (listCreator feed limit maxId).1 feed := by
  unfold listCreator
  cases maxId with
  | none => exact List.take_sublist limit feed
  | some m =>
    exact (List.take_sublist limit _).trans (List.filter_sublist feed)

theorem listCreator_mem_le (feed : List Post) (limit : Nat) (m : Int) :
    ∀ p ∈ (listCreator feed limit (some m)).1, p.id ≤ m := by
  intro p hp
  unfold listCreator at hp
  simp only [] at hp
  have := List.mem_of_mem_take hp
  have := List.of_mem_filter this
  simpa using this

theorem pageLoop_yields (feed : List Post) (dir : FetchDirection) (n : Option Nat)
    (minId : Option Int) :
    ∀ (fuel : Nat) (maxId maxDt : Option Int) (total : Nat) (firstIter : Bool)
      (st : State) (firstId : Option Int),
      yieldsOf (pageLoop feed dir n minId fuel maxId maxDt total firstIter st
        firstId).tr =
      ((processedOf (pageLoop feed dir n minId fuel maxId maxDt total firstIter st
        firstId).tr).filter (fun p => p.hasBody)).map (fun p => p.id) := by
  intro fuel
  induction fuel with
  | zero => intro maxId maxDt total firstIter st firstId; simp [pageLoop, yieldsOf, processedOf]
  | succ fuel ih =>
    intro maxId maxDt total firstIter st firstId
    simp only [pageLoop]
    split
    · simp [yieldsOf, processedOf]
    · rename_i p0 rest hpage
      split
      · have := itemLoop_yields dir n minId
          ((listCreator feed (pageSizeOf n total) (maxId.map (fun m => m - 1))).1)
          maxId maxDt total st
        simpa [yieldsOf, processedOf] using this
      · have h1 := itemLoop_yields dir n minId
          ((listCreator feed (pageSizeOf n total) (maxId.map (fun m => m - 1))).1)
          maxId maxDt total st
        have h2 := ih
          (itemLoop dir n minId
            ((listCreator feed (pageSizeOf n total) (maxId.map (fun m => m - 1))).1)
            maxId maxDt total st).maxId
          (itemLoop dir n minId
            ((listCreator feed (pageSizeOf n total) (maxId.map (fun m => m - 1))).1)
            maxId maxDt total st).maxDt
          (itemLoop dir n minId
            ((listCreator feed (pageSizeOf n total) (maxId.map (fun m => m - 1))).1)
            maxId maxDt total st).total
          false
          (itemLoop dir n minId
            ((listCreator feed (pageSizeOf n total) (maxId.map (fun m => m - 1))).1)
            maxId maxDt total st).st
          (if firstIter ∧ (st.head_id = none ∨ dir = FetchDirection.newer)
            then some p0.id else firstId)
        simp [yieldsOf, processedOf, List.filterMap_append, List.filter_append] at h1 h2 ⊢
        rw [h1, h2]

theorem processed_mem_iff (tr : List Entry) (p : Post) :
    p ∈ processedOf tr ↔ ∃ e ∈ tr, e.ev = Ev.processed p := by
  simp only [processedOf, List.mem_filterMap]
  constructor
  · rintro ⟨e, he, hm⟩
    refine ⟨e, he, ?_⟩
    cases hev : e.ev <;> rw [hev] at hm <;> simp at hm
    simp [hm]
  · rintro ⟨e, he, hm⟩
    exact ⟨e, he, by rw [hm]⟩

theorem itemLoop_processed_entry_mem (dir : FetchDirection) (n : Option Nat)
    (minId : Option Int) (posts : List Post) (maxId maxDt : Option Int)
    (total : Nat) (st : State) :
    ∀ e ∈ (itemLoop dir n minId posts maxId maxDt total st).tr,
      ∀ p, e.ev = Ev.processed p → p ∈ posts := by
  intro e he p hev
  have : p ∈ processedOf (itemLoop dir n minId posts maxId maxDt total st).tr :=
    (processed_mem_iff _ p).mpr ⟨e, he, hev⟩
  exact (itemLoop_processed_sublist dir n minId posts maxId maxDt total st).mem this

theorem pageLoop_processed_bound (feed : List Post) (dir : FetchDirection)
    (n : Option Nat) (minId : Option Int) :
    ∀ (fuel : Nat) (m : Int) (maxDt : Option Int) (total : Nat) (firstIter : Bool)
      (st : State) (firstId : Option Int),
      ∀ e ∈ (pageLoop feed dir n minId fuel (some m) maxDt total
        firstIter st firstId).tr,
        ∀ p, e.ev = Ev.processed p → p.id ≤ m - 1 := by
  intro fuel
  induction fuel with
  | zero =>
    intro m maxDt total firstIter st firstId e he
    simp [pageLoop] at he
  | succ fuel ih =>
    intro m maxDt total firstIter st firstId e he p hev
    simp only [pageLoop, Option.map_some'] at he
    split at he
    · simp at he
      rw [he] at hev; simp at hev
    · rename_i p0 rest hpage
      split at he
      · rcases List.mem_cons.mp he with h1 | h1
        · rw [h1] at hev; simp at hev
        · have hmem := itemLoop_processed_entry_mem dir n minId
            ((listCreator feed (pageSizeOf n total) (some (m - 1))).1)
            (some m) maxDt total st e h1 p hev
          exact listCreator_mem_le feed (pageSizeOf n total) (m - 1) p hmem
      · rename_i hcont
        push_neg at hcont
        obtain ⟨hstop, hnext⟩ := hcont
        rcases List.mem_cons.mp he with h1 | h1
        · rw [h1] at hev; simp at hev
        · rcases List.mem_append.mp h1 with h2 | h2
          · have hmem := itemLoop_processed_entry_mem dir n minId
              ((listCreator feed (pageSizeOf n total) (some (m - 1))).1)
              (some m) maxDt total st e h2 p hev
            exact listCreator_mem_le feed (pageSizeOf n total) (m - 1) p hmem
          · obtain ⟨hproc, hmax⟩ := itemLoop_not_stopped dir n minId
              ((listCreator feed (pageSizeOf n total) (some (m - 1))).1)
              (some m) maxDt total st (by simpa using hstop)
            cases hlast : ((listCreator feed (pageSizeOf n total) (some (m - 1))).1).getLast? with
            | none => rw [hpage] at hlast; simp at hlast
            | some q =>
              simp only [hlast] at hmax
              have hq : q ∈ (listCreator feed (pageSizeOf n total) (some (m - 1))).1 :=
                List.mem_of_mem_getLast? hlast
              have hqle : q.id ≤ m - 1 :=
                listCreator_mem_le feed (pageSizeOf n total) (m - 1) q hq
              have hrec := ih (q.id - 1)
                (itemLoop dir n minId
                  ((listCreator feed (pageSizeOf n total) (some (m - 1))).1)
                  (some m) maxDt total st).maxDt
                (itemLoop dir n minId
                  ((listCreator feed (pageSizeOf n total) (some (m - 1))).1)
                  (some m) maxDt total st).total
                false
                (itemLoop dir n minId
                  ((listCreator feed (pageSizeOf n total) (some (m - 1))).1)
                  (some m) maxDt total st).st
                (if firstIter ∧ (st.head_id = none ∨ dir = FetchDirection.newer)
                  then some p0.id else firstId)
              rw [← hmax] at hrec
              have := hrec e h2 p hev
              omega

theorem pairwise_getLast_le (l : List Post)
    (h : l.Pairwise (fun a b => b.id < a.id)) :
    ∀ q, l.getLast? = some q → ∀ a ∈ l, q.id ≤ a.id := by
  induction l with
  | nil => intro q hq; simp at hq
  | cons a rest ih =>
    intro q hq b hb
    cases rest with
    | nil =>
      simp at hq hb
      subst hq; subst hb; exact le_refl _
    | cons c cs =>
      rw [List.getLast?_cons_cons] at hq
      rcases List.mem_cons.mp hb with h1 | h1
      · subst h1
        have hqmem : q ∈ c :: cs := List.mem_of_mem_getLast? hq
        have := (List.pairwise_cons.mp h).1 q hqmem
        omega
      · exact ih (List.pairwise_cons.mp h).2 q hq b h1

theorem pageLoop_processed_pairwise (feed : List Post) (dir : FetchDirection)
    (n : Option Nat) (minId : Option Int)
    (hfeed : feed.Pairwise (fun a b => b.id < a.id)) :
    ∀ (fuel : Nat) (maxId maxDt : Option Int) (total : Nat) (firstIter : Bool)
      (st : State) (firstId : Option Int),
      (processedOf (pageLoop feed dir n minId fuel maxId maxDt total firstIter st
        firstId).tr).Pairwise (fun a b => b.id < a.id) := by
  intro fuel
  induction fuel with
  | zero =>
    intro maxId maxDt total firstIter st firstId
    simp [pageLoop, processedOf]
  | succ fuel ih =>
    intro maxId maxDt total firstIter st firstId
    have pagePairwise :
        ((listCreator feed (pageSizeOf n total) (maxId.map (fun m => m - 1))).1).Pairwise
          (fun a b => b.id < a.id) :=
      List.Pairwise.sublist (listCreator_sublist feed (pageSizeOf n total) _) hfeed
    have hsub := itemLoop_processed_sublist dir n minId
      ((listCreator feed (pageSizeOf n total) (maxId.map (fun m => m - 1))).1)
      maxId maxDt total st
    simp only [pageLoop]
    split
    · simp [processedOf]
    · rename_i p0 rest hpage
      split
      · have := List.Pairwise.sublist hsub pagePairwise
        simpa [processedOf] using this
      · rename_i hcont
        push_neg at hcont
        obtain ⟨hstop, hnext⟩ := hcont
        obtain ⟨hproc, hmax⟩ := itemLoop_not_stopped dir n minId
          ((listCreator feed (pageSizeOf n total) (maxId.map (fun m => m - 1))).1)
          maxId maxDt total st (by simpa using hstop)
        cases hlast : ((listCreator feed (pageSizeOf n total)
            (maxId.map (fun m => m - 1))).1).getLast? with
        | none => rw [hpage] at hlast; simp at hlast
        | some q =>
          simp only [hlast] at hmax
          show ((processedOf (⟨_, _⟩ :: (itemLoop dir n minId _ maxId maxDt total st).tr
            ++ (pageLoop feed dir n minId fuel _ _ _ false _ _).tr))).Pairwise _
          have hsplitEq : processedOf
              ((⟨Ev.request (maxId.map (fun m => m - 1)) (maxDt.map (fun d => d - 1))
                  (pageSizeOf n total), st⟩ : Entry) ::
                (itemLoop dir n minId
                  ((listCreator feed (pageSizeOf n total) (maxId.map (fun m => m - 1))).1)
                  maxId maxDt total st).tr ++
                (pageLoop feed dir n minId fuel
                  (itemLoop dir n minId
                    ((listCreator feed (pageSizeOf n total) (maxId.map (fun m => m - 1))).1)
                    maxId maxDt total st).maxId
                  (itemLoop dir n minId
                    ((listCreator feed (pageSizeOf n total) (maxId.map (fun m => m - 1))).1)
                    maxId maxDt total st).maxDt
                  (itemLoop dir n minId
                    ((listCreator feed (pageSizeOf n total) (maxId.map (fun m => m - 1))).1)
                    maxId maxDt total st).total
                  false
                  (itemLoop dir n minId
                    ((listCreator feed (pageSizeOf n total) (maxId.map (fun m => m - 1))).1)
                    maxId maxDt total st).st
                  (if firstIter ∧ (st.head_id = none ∨ dir = FetchDirection.newer)
                    then some p0.id else firstId)).tr) =
              processedOf (itemLoop dir n minId
                ((listCreator feed (pageSizeOf n total) (maxId.map (fun m => m - 1))).1)
                maxId maxDt total st).tr ++
              processedOf (pageLoop feed dir n minId fuel
                (itemLoop dir n minId
                  ((listCreator feed (pageSizeOf n total) (maxId.map (fun m => m - 1))).1)
                  maxId maxDt total st).maxId
                (itemLoop dir n minId
                  ((listCreator feed (pageSizeOf n total) (maxId.map (fun m => m - 1))).1)
                  maxId maxDt total st).maxDt
                (itemLoop dir n minId
                  ((listCreator feed (pageSizeOf n total) (maxId.map (fun m => m - 1))).1)
                  maxId maxDt total st).total
                false
                (itemLoop dir n minId
                  ((listCreator feed (pageSizeOf n total) (maxId.map (fun m => m - 1))).1)
                  maxId maxDt total st).st
                (if firstIter ∧ (st.head_id = none ∨ dir = FetchDirection.newer)
                  then some p0.id else firstId)).tr := by
            simp [processedOf, List.filterMap_append]
          rw [hsplitEq, List.pairwise_append]
          refine ⟨by rw [hproc]; exact pagePairwise, ih _ _ _ _ _ _, ?_⟩
          intro a ha b hb
          have haPage : a ∈ (listCreator feed (pageSizeOf n total)
              (maxId.map (fun m => m - 1))).1 := by
            rw [hproc] at ha; exact ha
          have haGe := pairwise_getLast_le _ pagePairwise q hlast a haPage
          obtain ⟨e, he, hev⟩ := (processed_mem_iff _ b).mp hb
          have hbLe := pageLoop_processed_bound feed dir n minId fuel (q.id - 1)
            (itemLoop dir n minId
              ((listCreator feed (pageSizeOf n total) (maxId.map (fun m => m - 1))).1)
              maxId maxDt total st).maxDt
            (itemLoop dir n minId
              ((listCreator feed (pageSizeOf n total) (maxId.map (fun m => m - 1))).1)
              maxId maxDt total st).total
            false
            (itemLoop dir n minId
              ((listCreator feed (pageSizeOf n total) (maxId.map (fun m => m - 1))).1)
              maxId maxDt total st).st
            (if firstIter ∧ (st.head_id = none ∨ dir = FetchDirection.newer)
              then some p0.id else firstId)
            e (by rw [← hmax]; exact he) b hev
          omega

theorem pageLoop_firstId_false (feed : List Post) (dir : FetchDirection)
    (n : Option Nat) (minId : Option Int) :
    ∀ (fuel : Nat) (maxId maxDt : Option Int) (total : Nat) (st : State)
      (firstId : Option Int),
      (pageLoop feed dir n minId fuel maxId maxDt total false st firstId).firstId
        = firstId := by
  intro fuel
  induction fuel with
  | zero => intro maxId maxDt total st firstId; simp [pageLoop]
  | succ fuel ih =>
    intro maxId maxDt total st firstId
    simp only [pageLoop]
    split
    · rfl
    · split
      · simp
      · simpa using ih _ _ _ _ _

theorem pageLoop_firstId_first_page (feed : List Post) (dir : FetchDirection)
    (n : Option Nat) (minId : Option Int) (fuel : Nat) (maxId maxDt : Option Int)
    (total : Nat) (st : State) :
    (pageLoop feed dir n minId (fuel + 1) maxId maxDt total true st none).firstId =
      (match (listCreator feed (pageSizeOf n total) (maxId.map (fun m => m - 1))).1 with
        | [] => none
        | p :: _ =>
          if st.head_id = none ∨ dir = FetchDirection.newer then some p.id
          else none) := by
  simp only [pageLoop]
  split
  · rfl
  · split
    · simp
    · simpa using pageLoop_firstId_false feed dir n minId fuel _ _ _ _ _

theorem fetchCore_head (feed : List Post) (dir : FetchDirection) (n : Option Nat)
    (st : State) :
    (∀ e ∈ (fetchCore feed dir n st).tr, e.st.head_id = st.head_id) ∧
    (fetchCore feed dir n st).st.head_id = st.head_id := by
  unfold fetchCore
  exact pageLoop_head feed _ _ _ (feed.length + 1) _ _ 0 true st none

theorem fetch_st_head (feed : List Post) (dir : FetchDirection) (n : Option Nat)
    (hasSub : Bool) (st : State) :
    (fetch feed dir n hasSub st).st.head_id =
      (match (fetchCore feed dir n st).firstId with
        | some f => some f
        | none => st.head_id) := by
  unfold fetch
  cases h : (fetchCore feed dir n st).firstId with
  | some f => simp [h]
  | none => simp [h, (fetchCore_head feed dir n st).2]

theorem fetchCore_firstId_newer (feed : List Post) (n : Option Nat) (st : State)
    (t : Int) (ht : st.tail_id = some t) :
    (fetchCore feed .newer n st).firstId =
      (match feed.take PAGE_LIMIT with
        | [] => none
        | p :: _ => some p.id) := by
  unfold fetchCore fetchDowngrade
  simp only [ht]
  have h1 := pageLoop_firstId_first_page feed .newer none
    (if (FetchDirection.newer = FetchDirection.newer :
      Prop) then st.head_id else none)
    feed.length none none 0 st
  simp only [pageSizeOf, Option.map_none', listCreator] at h1
  simpa [listCreator, pageSizeOf] using h1

theorem fetch_tr_eq (feed : List Post) (dir : FetchDirection) (n : Option Nat)
    (hasSub : Bool) (st : State) :
    (fetch feed dir n hasSub st).tr =
      insertCommits (fetchCore feed dir n st).tr ++
      ((if hasSub then
          [⟨Ev.persist (fetch feed dir n hasSub st).st,
            (fetch feed dir n hasSub st).st⟩] else []) ++
        [⟨Ev.commit, (fetch feed dir n hasSub st).st⟩]) := by
  rfl

theorem processedOf_append (a b : List Entry) :
    processedOf (a ++ b) = processedOf a ++ processedOf b := by
  simp [processedOf, List.filterMap_append]

theorem yieldsOf_append (a b : List Entry) :
    yieldsOf (a ++ b) = yieldsOf a ++ yieldsOf b := by
  simp [yieldsOf, List.filterMap_append]

theorem requestsOf_append (a b : List Entry) :
    requestsOf (a ++ b) = requestsOf a ++ requestsOf b := by
  simp [requestsOf, List.filterMap_append]

theorem processedOf_fetch (feed : List Post) (dir : FetchDirection) (n : Option Nat)
    (hasSub : Bool) (st : State) :
    processedOf (fetch feed dir n hasSub st).tr =
      processedOf (fetchCore feed dir n st).tr := by
  rw [fetch_tr_eq, processedOf_append, processedOf_insertCommits]
  cases hasSub <;> simp [processedOf]

theorem yieldsOf_fetch (feed : List Post) (dir : FetchDirection) (n : Option Nat)
    (hasSub : Bool) (st : State) :
    yieldsOf (fetch feed dir n hasSub st).tr =
      yieldsOf (fetchCore feed dir n st).tr := by
  rw [fetch_tr_eq, yieldsOf_append, yieldsOf_insertCommits]
  cases hasSub <;> simp [yieldsOf]

theorem requestsOf_fetch (feed : List Post) (dir : FetchDirection) (n : Option Nat)
    (hasSub : Bool) (st : State) :
    requestsOf (fetch feed dir n hasSub st).tr =
      requestsOf (fetchCore feed dir n st).tr := by
  rw [fetch_tr_eq, requestsOf_append, requestsOf_insertCommits]
  cases hasSub <;> simp [requestsOf]

theorem fetchCore_older_processed_tail (feed : List Post) (n : Option Nat)
    (st : State) :
    ∀ e ∈ (fetchCore feed .older n st).tr, ∀ p, e.ev = Ev.processed p →
      e.st.tail_id = some p.id ∧
      e.st.tail_datetime = some p.publishedDatetime := by
  unfold fetchCore
  exact pageLoop_processed_tail feed _ _ (feed.length + 1) _ _ 0 true st none

theorem fetchCore_older_processed_bound (feed : List Post) (n : Option Nat)
    (st : State) (t : Int) (ht : st.tail_id = some t) :
    ∀ p ∈ processedOf (fetchCore feed .older n st).tr, p.id < t := by
  intro p hp
  obtain ⟨e, he, hev⟩ := (processed_mem_iff _ p).mp hp
  unfold fetchCore fetchDowngrade at he
  simp only [] at he
  rw [show (if (FetchDirection.older = FetchDirection.newer : Prop) then none
      else st.tail_id) = some t by simp [ht]] at he
  have := pageLoop_processed_bound feed .older n
    (if (FetchDirection.older = FetchDirection.newer : Prop) then st.head_id
      else none)
    (feed.length + 1) t
    (if (FetchDirection.older = FetchDirection.newer : Prop) then none
      else st.tail_datetime)
    0 true st none e he p hev
  omega

theorem fetchCore_older_processed_pairwise (feed : List Post) (n : Option Nat)
    (st : State) (hfeed : feed.Pairwise (fun a b => b.id < a.id)) :
    (processedOf (fetchCore feed .older n st).tr).Pairwise
      (fun a b => b.id < a.id) := by
  unfold fetchCore
  exact pageLoop_processed_pairwise feed _ _ _ hfeed (feed.length + 1) _ _ 0 true
    st none

theorem fetchCore_yields_filter (feed : List Post) (dir : FetchDirection)
    (n : Option Nat) (st : State) :
    yieldsOf (fetchCore feed dir n st).tr =
      ((processedOf (fetchCore feed dir n st).tr).filter
        (fun p => p.hasBody)).map (fun p => p.id) := by
  unfold fetchCore
  exact pageLoop_yields feed _ _ _ (feed.length + 1) _ _ 0 true st none

/-- Checks that every yield event is immediately followed by a commit event:
the produced element is durably committed before anything else happens. -/
def yieldCommitOk : List Entry → Bool
  | [] => true
  | e :: rest =>
    match e.ev with
    | Ev.yield _ =>
      (match rest with
        | e2 :: _ => (match e2.ev with | Ev.commit => true | _ => false)
        | [] => false) && yieldCommitOk rest
    | _ => yieldCommitOk rest

theorem yieldCommitOk_insertCommits (tr suffix : List Entry)
    (h : yieldCommitOk suffix = true) :
    yieldCommitOk (insertCommits tr ++ suffix) = true := by
  induction tr with
  | nil => simpa [insertCommits] using h
  | cons e rest ih =>
    have hstep : insertCommits (e :: rest) =
        (match e.ev with
          | Ev.yield _ => [e, ⟨Ev.commit, e.st⟩]
          | _ => [e]) ++ insertCommits rest := by
      simp [insertCommits]
    cases hev : e.ev <;> rw [hstep, hev] <;>
      simp only [List.cons_append, List.nil_append] <;>
      simp [yieldCommitOk, hev, ih]

theorem fetch_yieldCommitOk (feed : List Post) (dir : FetchDirection)
    (n : Option Nat) (hasSub : Bool) (st : State) :
    yieldCommitOk (fetch feed dir n hasSub st).tr = true := by
  rw [fetch_tr_eq]
  apply yieldCommitOk_insertCommits
  cases hasSub <;> simp [yieldCommitOk]

end Fanbox

namespace Pixiv

theorem itemsLoop_head_ge (dir : FetchDirection) (h : Int) :
    ∀ (posts : List Int) (st : State) (h0 : Int),
      st.head_id = some h0 → h ≤ h0 → (∀ p ∈ posts, h ≤ p) →
      (∀ e ∈ (itemsLoop dir posts st).1, ∀ h2, e.st.head_id = some h2 → h ≤ h2) ∧
      (∀ h2, (itemsLoop dir posts st).2.head_id = some h2 → h ≤ h2) := by
  intro posts
  induction posts with
  | nil =>
    intro st h0 hst hh hall
    constructor
    · intro e he; simp [itemsLoop] at he
    · intro h2 hh2; simp [itemsLoop] at hh2; rw [hst] at hh2
      simp at hh2; omega
  | cons p rest ih =>
    intro st h0 hst hh hall
    have hp : h ≤ p := hall p (by simp)
    have hrest : ∀ q ∈ rest, h ≤ q := fun q hq => hall q (by simp [hq])
    simp only [itemsLoop, hst]
    have hne : ¬(some h0 = (none : Option Int)) := by simp
    rw [if_neg hne, if_neg hne]
    cases hdir : dir with
    | newer =>
      rw [if_pos rfl]
      obtain ⟨ihTr, ihSt⟩ := ih { st with head_id := some p } p rfl hp hrest
      rw [hdir] at ihTr ihSt
      constructor
      · intro e he h2 hh2
        simp only [List.nil_append, List.mem_cons] at he
        rcases he with he | he | he | he
        · rw [he] at hh2; simp at hh2; rw [hst] at hh2; simp at hh2; omega
        · rw [he] at hh2; simp at hh2; rw [hst] at hh2; simp at hh2; omega
        · rw [he] at hh2; simp at hh2; omega
        · exact ihTr e he h2 hh2
      · exact ihSt
    | older =>
      rw [if_neg (by simp)]
      obtain ⟨ihTr, ihSt⟩ := ih { st with tail_id := some p } h0 (by simp [hst])
        hh hrest
      rw [hdir] at ihTr ihSt
      constructor
      · intro e he h2 hh2
        simp only [List.nil_append, List.mem_cons] at he
        rcases he with he | he | he | he
        · rw [he] at hh2; simp at hh2; rw [hst] at hh2; simp at hh2; omega
        · rw [he] at hh2; simp at hh2; rw [hst] at hh2; simp at hh2; omega
        · rw [he] at hh2; simp at hh2; rw [hst] at hh2; simp at hh2; omega
        · exact ihTr e he h2 hh2
      · exact ihSt

theorem fetch_head_ge (api : List Int) (n : Option Nat) (hasSub : Bool)
    (h t : Int) :
    ∀ e ∈ (fetch api .newer n hasSub ⟨some h, some t⟩).1,
      ∀ h2, e.st.head_id = some h2 → h ≤ h2 := by
  intro e he h2 hh2
  unfold fetch iterPosts at he
  rw [if_neg (by simp)] at he
  simp only [] at he
  have hposts : ∀ p ∈ (match n with
      | some k => (sortedAsc (api.filter
          (fun i => match (some h : Option Int) with
            | some h => decide (h < i)
            | none => false))).take k
      | none => sortedAsc (api.filter
          (fun i => match (some h : Option Int) with
            | some h => decide (h < i)
            | none => false))), h ≤ p := by
    intro p hp
    have hp2 : p ∈ sortedAsc (api.filter
        (fun i => match (some h : Option Int) with
          | some h => decide (h < i)
          | none => false)) := by
      cases n with
      | none => exact hp
      | some k => exact List.mem_of_mem_take hp
    rw [sortedAsc] at hp2
    rw [(List.perm_insertionSort (fun a b => a ≤ b) _).mem_iff] at hp2
    have := List.of_mem_filter hp2
    simp at this
    omega
  obtain ⟨loopTr, loopSt⟩ := itemsLoop_head_ge .newer h _
    (⟨some h, some t⟩ : State) h rfl (le_refl h) hposts
  rcases List.mem_append.mp he with h1 | h1
  · exact loopTr e h1 h2 hh2
  · cases hasSub <;> simp at h1
    rw [h1] at hh2
    simp at hh2
    exact loopSt h2 hh2

end Pixiv

namespace Fantia

/-- The cursor updates performed along a fantia trace. -/
def updatesOf (tr : List Entry) : List Int :=
  tr.filterMap (fun e => match e.ev with | Ev.update i => some i | _ => none)

/-- Checks that every yield event is immediately followed by a commit event
in a fantia trace. -/
def yieldCommitOk : List Entry → Bool
  | [] => true
  | e :: rest =>
    match e.ev with
    | Ev.yield _ _ =>
      (match rest with
        | e2 :: _ => (match e2.ev with | Ev.commit => true | _ => false)
        | [] => false) && yieldCommitOk rest
    | _ => yieldCommitOk rest

theorem fetchLoop_updates_bound (feed : List Post) (dir : FetchDirection) :
    ∀ (fuel pos b : Nat) (st : State),
      (updatesOf (fetchLoop feed dir fuel pos (some b) st).1).length ≤ b := by
  intro fuel
  induction fuel with
  | zero => intro pos b st; simp [fetchLoop, updatesOf]
  | succ fuel ih =>
    intro pos b st
    cases b with
    | zero => simp [fetchLoop, updatesOf]
    | succ b =>
      simp only [fetchLoop]
      rw [if_neg (by simp)]
      cases hpos : feed.get? pos with
      | none => simp [hpos, updatesOf]
      | some post =>
        simp only [hpos]
        have hnil : List.filterMap
            ((fun e => match e.ev with | Ev.update i => some i | _ => none) ∘
              (fun k => (⟨Ev.yield post.id k, st⟩ : Entry)))
            (List.range post.numRemote) = [] :=
          List.filterMap_eq_nil_iff.mpr (fun a _ => rfl)
        cases hdir : dir with
        | newer =>
          have hrec := ih (pos + 1) b { st with head_id := some post.id }
          rw [hdir] at hrec
          by_cases hnx : pos + 1 < feed.length
          · simp [hnx, updatesOf, List.filterMap_append, List.filterMap_map, hnil]
              at hrec ⊢
            omega
          · simp [hnx, updatesOf, List.filterMap_append, List.filterMap_map, hnil]
        | older =>
          have hrec := ih (pos - 1) b { st with tail_id := some post.id }
          rw [hdir] at hrec
          by_cases hnx : 0 < pos
          · simp [hnx, updatesOf, List.filterMap_append, List.filterMap_map, hnil]
              at hrec ⊢
            omega
          · simp [hnx, updatesOf, List.filterMap_append, List.filterMap_map, hnil]

end Fantia

namespace Twitter

/-- The tweets carried in a list of page-iterator items. -/
def itemTweets (l : List Item) : List Tweet :=
  l.filterMap (fun it => match it with | Item.tweet t => some t | _ => none)

theorem fetchEvents_processed_eq (dir : FetchDirection) :
    ∀ (items : List Item) (st : State) (firstId : Option Int) (firstIter : Bool),
      processedOf (fetchEvents dir items st firstId firstIter).1 =
        itemTweets items := by
  intro items
  induction items with
  | nil => intro st firstId firstIter; simp [fetchEvents, processedOf, itemTweets]
  | cons it rest ih =>
    intro st firstId firstIter
    cases it with
    | request m c =>
      simp only [fetchEvents, processedOf, itemTweets, List.filterMap_cons]
      simpa [processedOf, itemTweets] using ih st firstId firstIter
    | tweet t =>
      simp only [fetchEvents]
      cases hc : t.hasContent <;>
        simp only [hc, Bool.false_eq_true, if_false, if_true, List.nil_append,
          List.cons_append] <;>
        simp [processedOf, itemTweets, List.filterMap_cons, List.filterMap_append] <;>
        simpa [processedOf, itemTweets] using ih _ _ false

theorem fetchEvents_yields (dir : FetchDirection) :
    ∀ (items : List Item) (st : State) (firstId : Option Int) (firstIter : Bool),
      yieldsOf (fetchEvents dir items st firstId firstIter).1 =
        ((itemTweets items).filter (fun t => t.hasContent)).map (fun t => t.id) := by
  intro items
  induction items with
  | nil => intro st firstId firstIter; simp [fetchEvents, yieldsOf, itemTweets]
  | cons it rest ih =>
    intro st firstId firstIter
    cases it with
    | request m c =>
      simp only [fetchEvents, yieldsOf, itemTweets, List.filterMap_cons]
      simpa [yieldsOf, itemTweets] using ih st firstId firstIter
    | tweet t =>
      simp only [fetchEvents]
      cases hc : t.hasContent <;>
        simp only [hc, Bool.false_eq_true, if_false, if_true, List.nil_append,
          List.cons_append] <;>
        simp [yieldsOf, itemTweets, List.filterMap_cons, List.filterMap_append, hc] <;>
        simpa [yieldsOf, itemTweets] using ih _ _ false

theorem fetchEvents_processed_tail :
    ∀ (items : List Item) (st : State) (firstId : Option Int) (firstIter : Bool),
      ∀ e ∈ (fetchEvents .older items st firstId firstIter).1,
        ∀ t, e.ev = Ev.processed t → e.st.tail_id = some t.id := by
  intro items
  induction items with
  | nil => intro st firstId firstIter e he; simp [fetchEvents] at he
  | cons it rest ih =>
    intro st firstId firstIter e he t hev
    cases it with
    | request m c =>
      simp only [fetchEvents] at he
      rcases List.mem_cons.mp he with h1 | h1
      · rw [h1] at hev; simp at hev
      · exact ih st firstId firstIter e h1 t hev
    | tweet tw =>
      simp only [fetchEvents] at he
      rcases List.mem_append.mp he with h1 | h1
      · split at h1 <;> simp at h1
        rcases h1 with h2 | h2 <;> rw [h2] at hev <;> simp at hev
      · rcases List.mem_cons.mp h1 with h2 | h2
        · rw [h2] at hev ⊢
          simp at hev
          subst hev
          simp
        · exact ih _ _ false e h2 t hev

theorem getUserTimeline_mem (feed : List Tweet) (count : Nat)
    (maxId sinceId : Option Int) :
    ∀ t ∈ getUserTimeline feed count maxId sinceId,
      t ∈ feed ∧ ∀ m, maxId = some m → t.id ≤ m := by
  intro t ht
  unfold getUserTimeline at ht
  have h1 := List.mem_of_mem_take ht
  refine ⟨List.mem_of_mem_filter h1, ?_⟩
  intro m hm
  subst hm
  have h2 := List.of_mem_filter h1
  simp at h2
  exact h2.2

theorem pageItems_tweets_sublist (limit : Option Nat) :
    ∀ (tws : List Tweet) (maxId : Option Int) (total : Nat),
      List.Sublist (itemTweets (pageItems limit tws maxId total).1) tws := by
  intro tws
  induction tws with
  | nil => intro maxId total; simp [pageItems, itemTweets]
  | cons t rest ih =>
    intro maxId total
    simp only [pageItems]
    split
    · simp [itemTweets]
    · simp only [itemTweets, List.filterMap_cons]
      exact List.Sublist.cons₂ t (ih (some (t.id - 1)) (total + 1))

theorem pageItems_cont (limit : Option Nat) :
    ∀ (tws : List Tweet) (maxId : Option Int) (total : Nat) (mi : Option Int)
      (tot : Nat),
      (pageItems limit tws maxId total).2 = some (mi, tot) →
      (tws = [] ∧ mi = maxId) ∨
      (∃ q, tws.getLast? = some q ∧ mi = some (q.id - 1)) := by
  intro tws
  induction tws with
  | nil =>
    intro maxId total mi tot h
    simp [pageItems] at h
    exact Or.inl ⟨rfl, h.1.symm⟩
  | cons t rest ih =>
    intro maxId total mi tot h
    simp only [pageItems] at h
    split at h
    · simp at h
    · rcases ih (some (t.id - 1)) (total + 1) mi tot h with ⟨hnil, hmi⟩ | ⟨q, hq, hmi⟩
      · subst hnil
        exact Or.inr ⟨t, rfl, hmi⟩
      · refine Or.inr ⟨q, ?_, hmi⟩
        cases rest with
        | nil => simp at hq
        | cons c cs => rw [List.getLast?_cons_cons]; exact hq

theorem pageIterator_bound (feed : List Tweet) (limit : Option Nat) (count : Nat)
    (sinceId : Option Int) :
    ∀ (fuel : Nat) (m : Int) (total : Nat),
      ∀ t ∈ itemTweets (pageIterator feed limit count sinceId fuel (some m) total),
        t.id ≤ m := by
  intro fuel
  induction fuel with
  | zero => intro m total t ht; simp [pageIterator, itemTweets] at ht
  | succ fuel ih =>
    intro m total t ht
    simp only [pageIterator] at ht
    split at ht
    · simp [itemTweets] at ht
    · rename_i tws0 hne
      split at ht
      · simp only [itemTweets, List.filterMap_cons] at ht
        have hsub := pageItems_tweets_sublist limit
          (getUserTimeline feed count (some m) sinceId) (some m) total
        have hmem : t ∈ getUserTimeline feed count (some m) sinceId :=
          hsub.mem (by simpa [itemTweets] using ht)
        exact (getUserTimeline_mem feed count (some m) sinceId t hmem).2 m rfl
      · rename_i mt hcont
        simp only [itemTweets, List.filterMap_cons, List.filterMap_append] at ht
        rcases List.mem_append.mp ht with h1 | h1
        · have hsub := pageItems_tweets_sublist limit
            (getUserTimeline feed count (some m) sinceId) (some m) total
          have hmem : t ∈ getUserTimeline feed count (some m) sinceId :=
            hsub.mem (by simpa [itemTweets] using h1)
          exact (getUserTimeline_mem feed count (some m) sinceId t hmem).2 m rfl
        · rcases pageItems_cont limit
            (getUserTimeline feed count (some m) sinceId) (some m) total mt.1 mt.2
            (by rw [hcont]) with ⟨hnil, hmi⟩ | ⟨q, hq, hmi⟩
          · rw [hnil] at hne
            simp at hne
          · have hqmem := List.mem_of_mem_getLast? hq
            have hqle := (getUserTimeline_mem feed count (some m) sinceId q hqmem).2
              m rfl
            rw [hmi] at h1
            have := ih (q.id - 1) mt.2 t (by simpa [itemTweets] using h1)
            omega

theorem tw_processedOf_append (a b : List Entry) :
    processedOf (a ++ b) = processedOf a ++ processedOf b := by
  simp [processedOf, List.filterMap_append]

theorem tw_yieldsOf_append (a b : List Entry) :
    yieldsOf (a ++ b) = yieldsOf a ++ yieldsOf b := by
  simp [yieldsOf, List.filterMap_append]

theorem tw_fetch_tr_eq (feed : List Tweet) (dir : FetchDirection) (n : Option Nat)
    (hasSub : Bool) (st : State) :
    (fetch feed dir n hasSub st).1 =
      (fetchEvents (fetchAdjust st dir n).1
        (feedIterator feed (fetchAdjust st dir n).1 (fetchAdjust st dir n).2 st)
        st none true).1 ++
      (if hasSub then
        [⟨Ev.persist (fetch feed dir n hasSub st).2,
          (fetch feed dir n hasSub st).2⟩] else []) := by
  rfl

theorem tw_fetch_processed_eq (feed : List Tweet) (dir : FetchDirection)
    (n : Option Nat) (hasSub : Bool) (st : State) :
    processedOf (fetch feed dir n hasSub st).1 =
      itemTweets (feedIterator feed (fetchAdjust st dir n).1
        (fetchAdjust st dir n).2 st) := by
  rw [tw_fetch_tr_eq, tw_processedOf_append, fetchEvents_processed_eq]
  cases hasSub <;> simp [processedOf]

theorem tw_fetch_yields_filter (feed : List Tweet) (dir : FetchDirection)
    (n : Option Nat) (hasSub : Bool) (st : State) :
    yieldsOf (fetch feed dir n hasSub st).1 =
      ((processedOf (fetch feed dir n hasSub st).1).filter
        (fun t => t.hasContent)).map (fun t => t.id) := by
  rw [tw_fetch_tr_eq, tw_yieldsOf_append, tw_processedOf_append,
    fetchEvents_yields, fetchEvents_processed_eq]
  cases hasSub <;> simp [yieldsOf, processedOf]

theorem tw_fetch_older_processed_tail (feed : List Tweet) (n : Option Nat)
    (hasSub : Bool) (st : State) :
    ∀ e ∈ (fetch feed .older n hasSub st).1, ∀ t, e.ev = Ev.processed t →
      e.st.tail_id = some t.id := by
  intro e he t hev
  rw [tw_fetch_tr_eq] at he
  rcases List.mem_append.mp he with h1 | h1
  · exact fetchEvents_processed_tail _ st none true e h1 t hev
  · cases hasSub <;> simp at h1
    rw [h1] at hev; simp at hev

theorem tw_fetch_older_processed_bound (feed : List Tweet) (n : Option Nat)
    (hasSub : Bool) (st : State) (t : Int) (ht : st.tail_id = some t) :
    ∀ tw ∈ processedOf (fetch feed .older n hasSub st).1, tw.id < t := by
  intro tw htw
  rw [tw_fetch_processed_eq] at htw
  have hadj : fetchAdjust st .older n = (.older, n) := rfl
  rw [hadj] at htw
  unfold feedIterator at htw
  simp only [ht] at htw
  have hred : (if (FetchDirection.older = FetchDirection.newer : Prop)
      then (none : Option Int) else some t) = some t := by simp
  rw [hred] at htw
  simp only [Option.map_some'] at htw
  have := pageIterator_bound feed n _ _ (feed.length + 1) (t - 1) 0 tw htw
  omega

end Twitter

namespace Fanbox

theorem fetch_older_processed_tail (feed : List Post) (n : Option Nat)
    (hasSub : Bool) (st : State) :
    ∀ e ∈ (fetch feed .older n hasSub st).tr, ∀ p, e.ev = Ev.processed p →
      e.st.tail_id = some p.id ∧
      e.st.tail_datetime = some p.publishedDatetime := by
  intro e he p hev
  rw [fetch_tr_eq] at he
  rcases List.mem_append.mp he with h1 | h1
  · rcases insertCommits_mem _ e h1 with h2 | h2
    · exact fetchCore_older_processed_tail feed n st e h2 p hev
    · rw [h2] at hev; simp at hev
  · cases hasSub <;> simp at h1
    · rw [h1] at hev; simp at hev
    · rcases h1 with h2 | h2 <;> rw [h2] at hev <;> simp at hev

theorem fetch_older_processed_bound (feed : List Post) (n : Option Nat)
    (hasSub : Bool) (st : State) (t : Int) (ht : st.tail_id = some t) :
    ∀ p ∈ processedOf (fetch feed .older n hasSub st).tr, p.id < t := by
  intro p hp
  rw [processedOf_fetch] at hp
  exact fetchCore_older_processed_bound feed n st t ht p hp

theorem fetch_older_processed_pairwise (feed : List Post) (n : Option Nat)
    (hasSub : Bool) (st : State)
    (hfeed : feed.Pairwise (fun a b => b.id < a.id)) :
    (processedOf (fetch feed .older n hasSub st).tr).Pairwise
      (fun a b => b.id < a.id) := by
  rw [processedOf_fetch]
  exact fetchCore_older_processed_pairwise feed n st hfeed

theorem fetch_yields_filter (feed : List Post) (dir : FetchDirection)
    (n : Option Nat) (hasSub : Bool) (st : State) :
    yieldsOf (fetch feed dir n hasSub st).tr =
      ((processedOf (fetch feed dir n hasSub st).tr).filter
        (fun p => p.hasBody)).map (fun p => p.id) := by
  rw [yieldsOf_fetch, processedOf_fetch]
  exact fetchCore_yields_filter feed dir n st

end Fanbox

/-- A fanbox feed of twelve posts with consecutive ids 100 down to 89, each
timestamped with its own id (in seconds) and accessible. -/
def feedA : List Fanbox.Post :=
  [⟨100, 100, true⟩, ⟨99, 99, true⟩, ⟨98, 98, true⟩, ⟨97, 97, true⟩,
   ⟨96, 96, true⟩, ⟨95, 95, true⟩, ⟨94, 94, true⟩, ⟨93, 93, true⟩,
   ⟨92, 92, true⟩, ⟨91, 91, true⟩, ⟨90, 90, true⟩, ⟨89, 89, true⟩]

/-- A small fanbox feed with an inaccessible post in the middle. -/
def feedB : List Fanbox.Post :=
  [⟨10, 10, true⟩, ⟨9, 9, false⟩, ⟨8, 8, true⟩]

/-- A two-post fanbox feed used for head-cursor witnesses. -/
def feedC : List Fanbox.Post :=
  [⟨20, 20, true⟩, ⟨19, 19, true⟩]

theorem dictInsertMany_disjoint (ys : List Int) :
    ∀ posts, ys.Nodup → (∀ i ∈ ys, i ∉ posts) →
      Downloader.dictInsertMany posts ys = posts ++ ys := by
  induction ys with
  | nil => intro posts _ _; simp [Downloader.dictInsertMany]
  | cons y rest ih =>
    intro posts hnd hdisj
    simp only [Downloader.dictInsertMany, List.foldl_cons]
    rw [show Downloader.dictInsert posts y = posts ++ [y] by
      simp [Downloader.dictInsert, hdisj y (by simp)]]
    have hsub : ∀ i ∈ rest, i ∉ posts ++ [y] := by
      intro i hi
      simp only [List.mem_append, List.mem_singleton]
      rintro (h | h)
      · exact hdisj i (by simp [hi]) h
      · exact (List.nodup_cons.mp hnd).1 (h ▸ hi)
    have := ih (posts ++ [y]) (List.nodup_cons.mp hnd).2 hsub
    simpa [Downloader.dictInsertMany, List.append_assoc] using this

/-- C7: for a known post's file position, the materializer downloads the
original only when the present flag is off and preview mode is off, the
thumbnail only when thumb_present is off; when both flags are on, nothing is
downloaded, import_file is not called, and the file record is unchanged
apart from refreshing remote_order (unchanged entirely when the order
matches, and fantia does not even touch remote_order), so a re-run on an
unchanged item downloads nothing. -/
theorem claim_C7_thm :
    ∀ (f : Materialize.FileRec) (order : Nat) (id : String) (preview : Bool),
      (((Materialize.fanboxImageFile (some f) order id preview).2.orig = true) ↔
        (f.present = false ∧ preview = false)) ∧
      (((Materialize.fanboxImageFile (some f) order id preview).2.thumb = true) ↔
        f.thumb_present = false) ∧
      (f.present = true → f.thumb_present = true →
        (Materialize.fanboxImageFile (some f) order id preview).2 =
          ⟨false, false, false⟩ ∧
        (Materialize.fanboxImageFile (some f) order id preview).1 =
          { f with remote_order := order }) ∧
      (f.remote_order = order → f.present = true → f.thumb_present = true →
        (Materialize.fanboxImageFile (some f) order id preview).1 = f) ∧
      ∀ (hasThumbUrl : Bool),
        (((Materialize.fantiaFileContent (some f) hasThumbUrl preview).2.orig
            = true) ↔ (f.present = false ∧ preview = false)) ∧
        ((Materialize.fantiaFileContent (some f) hasThumbUrl preview).2.thumb
            = true → f.thumb_present = false) ∧
        (f.present = true → f.thumb_present = true →
          (Materialize.fantiaFileContent (some f) hasThumbUrl preview).2 =
            ⟨false, false, false⟩ ∧
          (Materialize.fantiaFileContent (some f) hasThumbUrl preview).1 = f) := by
  intro f order id preview
  obtain ⟨fp, ft, fo, fm⟩ := f
  refine ⟨?_, ?_, ?_, ?_, ?_⟩
  · cases fp <;> cases ft <;> cases preview <;>
      simp [Materialize.fanboxImageFile]
  · cases fp <;> cases ft <;> cases preview <;>
      simp [Materialize.fanboxImageFile]
  · intro hp htt
    subst hp; subst htt
    simp [Materialize.fanboxImageFile]
  · intro ho hp htt
    subst ho; subst hp; subst htt
    simp [Materialize.fanboxImageFile]
  · intro hasThumbUrl
    refine ⟨?_, ?_, ?_⟩
    · cases fp <;> cases ft <;> cases preview <;> cases hasThumbUrl <;>
        simp [Materialize.fantiaFileContent]
    · cases fp <;> cases ft <;> cases preview <;> cases hasThumbUrl <;>
        simp [Materialize.fantiaFileContent]
    · intro hp htt
      subst hp; subst htt
      simp [Materialize.fantiaFileContent]

/-- C7 witness: a fanbox image file with both halves already present and a
matching position is returned untouched with nothing downloaded. -/
theorem claim_C7_witness :
    (Materialize.fanboxImageFile (some ⟨true, true, 1, "i-1"⟩) 1 "i-1" false).1 =
      ⟨true, true, 1, "i-1"⟩ ∧
    (Materialize.fanboxImageFile (some ⟨true, true, 1, "i-1"⟩) 1 "i-1" false).2 =
      ⟨false, false, false⟩ :=
  ⟨(claim_C7_thm ⟨true, true, 1, "i-1"⟩ 1 "i-1" false).2.2.2.1 rfl rfl rfl,
   ((claim_C7_thm ⟨true, true, 1, "i-1"⟩ 1 "i-1" false).2.2.1 rfl rfl).1⟩

/-- C8: when safe_fetch catches an error, retry flushes and re-invokes the
fetch with the count lowered by the number of distinct posts accumulated so
far; disable rolls back, clears the enabled flag, commits exactly that and
stops; any other answer re-raises; and when the yielded ids are distinct and
new, the lowering equals the number of items yielded. -/
theorem claim_C8_thm :
    ∀ (ys : List Int) (rest : List Downloader.Attempt) (n : Option Int)
      (posts : List Int),
      (Downloader.safeFetch (⟨ys, some .retry⟩ :: rest) n posts =
        (Downloader.Ev.fetchCall n :: Downloader.Ev.prompt ::
          Downloader.Ev.flush ::
          (Downloader.safeFetch rest
            (n.map (fun k => k - ((Downloader.dictInsertMany posts ys).length : Int)))
            (Downloader.dictInsertMany posts ys)).1,
         (Downloader.safeFetch rest
            (n.map (fun k => k - ((Downloader.dictInsertMany posts ys).length : Int)))
            (Downloader.dictInsertMany posts ys)).2)) ∧
      (Downloader.safeFetch (⟨ys, some .disable⟩ :: rest) n posts =
        ([.fetchCall n, .prompt, .rollback, .setEnabled false, .commit],
          .disabled)) ∧
      (Downloader.safeFetch (⟨ys, some .propagate⟩ :: rest) n posts =
        ([.fetchCall n, .prompt], .raised)) ∧
      (ys.Nodup → (∀ i ∈ ys, i ∉ posts) →
        (Downloader.dictInsertMany posts ys).length =
          posts.length + ys.length) := by
  intro ys rest n posts
  refine ⟨rfl, rfl, rfl, ?_⟩
  intro hnd hdisj
  rw [dictInsertMany_disjoint ys posts hnd hdisj]
  simp

/-- C8 witness: a first attempt yielding three distinct posts and erroring
with a retry answer leads to a flush and a re-invocation with the count
lowered from five to two. -/
theorem claim_C8_witness :
    Downloader.safeFetch [⟨[1, 2, 3], some .retry⟩, ⟨[], none⟩] (some 5) [] =
      ([Downloader.Ev.fetchCall (some 5), Downloader.Ev.prompt,
        Downloader.Ev.flush, Downloader.Ev.fetchCall (some 2)],
       Downloader.Result.done [1, 2, 3]) ∧
    (Downloader.dictInsertMany [] [1, 2, 3]).length =
      ([] : List Int).length + [1, 2, 3].length := by
  have h1 := (claim_C8_thm [1, 2, 3] [⟨[], none⟩] (some 5) []).1
  have h4 := (claim_C8_thm [1, 2, 3] [⟨[], none⟩] (some 5) []).2.2.2
    (by decide) (by intro i hi; simp)
  constructor
  · rw [h1]
    decide
  · exact h4

/-- C9 counterexample: a one-subscription sweep whose fetch fails shows the
update-all command prompting interactively (safe_fetch asks the user) before
the error reaches the sweep handler, refuting the claim that bulk sweeps
handle errors without any interactive prompting. -/
theorem claim_C9_counterexample :
    Downloader.Ev.prompt ∈
      ((Downloader.updateAll [⟨true, [⟨[1], some .propagate⟩]⟩]).1.getD 0 []) ∧
    (Downloader.updateAll [⟨true, [⟨[1], some .propagate⟩]⟩]).1 =
      [[Downloader.Ev.fetchCall none, Downloader.Ev.prompt,
        Downloader.Ev.rollback]] := by
  decide

/-- C9 amended: during update-all, every subscription is processed no matter
how the previous ones ended; an error that propagates out of safe_fetch is
caught, a rollback recorded, and the sweep continues — but errors inside a
fetch are first handled by the interactive safe_fetch prompt, so the sweep
is not prompt-free. -/
theorem claim_C9_thm :
    (∀ (s : Downloader.Sub) (rest : List Downloader.Sub),
      (Downloader.updateAll (s :: rest)).1.tail = (Downloader.updateAll rest).1 ∧
      (Downloader.updateAll (s :: rest)).2.tail = (Downloader.updateAll rest).2) ∧
    (∀ (s : Downloader.Sub) (rest : List Downloader.Sub),
      s.enabled = true → (Downloader.safeFetch s.script none []).2 = .raised →
      Downloader.updateAll (s :: rest) =
        (((Downloader.safeFetch s.script none []).1 ++ [Downloader.Ev.rollback]) ::
          (Downloader.updateAll rest).1,
         s :: (Downloader.updateAll rest).2)) ∧
    (∀ (ys : List Int) (c : Downloader.Choice) (rest : List Downloader.Attempt)
      (n : Option Int) (posts : List Int),
      Downloader.Ev.prompt ∈
        (Downloader.safeFetch (⟨ys, some c⟩ :: rest) n posts).1) := by
  refine ⟨?_, ?_, ?_⟩
  · intro s rest
    simp only [Downloader.updateAll]
    cases hen : s.enabled <;> simp
    cases hres : (Downloader.safeFetch s.script none []).2 <;> simp
  · intro s rest hen hres
    simp only [Downloader.updateAll]
    rw [if_pos hen, hres]
  · intro ys c rest n posts
    cases c <;> simp [Downloader.safeFetch]

/-- C9 witness: a sweep over a failing subscription followed by a healthy
one records a rollback for the first and still processes the second. -/
theorem claim_C9_witness :
    Downloader.updateAll
      [⟨true, [⟨[1], some .propagate⟩]⟩, ⟨true, [⟨[2], none⟩]⟩] =
      ([[Downloader.Ev.fetchCall none, Downloader.Ev.prompt,
         Downloader.Ev.rollback],
        [Downloader.Ev.fetchCall none, Downloader.Ev.commit]],
       [⟨true, [⟨[1], some .propagate⟩]⟩, ⟨true, [⟨[2], none⟩]⟩]) := by
  have := claim_C9_thm.2.1 ⟨true, [⟨[1], some .propagate⟩]⟩
    [⟨true, [⟨[2], none⟩]⟩] rfl (by decide)
  rw [this]
  decide

/-- C10: the update-all sweep skips every subscription whose enabled flag is
off: no fetch happens for it (its event list is empty) and the subscription
record is returned unchanged. -/
theorem claim_C10_thm :
    ∀ (subs : List Downloader.Sub) (i : Nat) (s : Downloader.Sub),
      subs.get? i = some s → s.enabled = false →
      (Downloader.updateAll subs).2.get? i = some s ∧
      (Downloader.updateAll subs).1.get? i = some [] := by
  intro subs
  induction subs with
  | nil => intro i s h; simp at h
  | cons a rest ih =>
    intro i s hget hen
    cases i with
    | zero =>
      simp at hget
      subst hget
      simp [Downloader.updateAll, hen]
    | succ i =>
      simp at hget
      rw [← List.get?_eq_getElem?] at hget
      have hr := ih i s hget hen
      cases hen2 : a.enabled
      · simpa [Downloader.updateAll, hen2] using hr
      · simp only [Downloader.updateAll, hen2]
        cases hres : (Downloader.safeFetch a.script none []).2 <;>
          simpa [hres] using hr

/-- C10 witness: a disabled subscription between two enabled ones is left
untouched and gets no events. -/
theorem claim_C10_witness :
    (Downloader.updateAll
      [⟨true, [⟨[1], none⟩]⟩, ⟨false, [⟨[2], none⟩]⟩]).2.get? 1 =
      some ⟨false, [⟨[2], none⟩]⟩ ∧
    (Downloader.updateAll
      [⟨true, [⟨[1], none⟩]⟩, ⟨false, [⟨[2], none⟩]⟩]).1.get? 1 = some [] :=
  claim_C10_thm [⟨true, [⟨[1], none⟩]⟩, ⟨false, [⟨[2], none⟩]⟩] 1
    ⟨false, [⟨[2], none⟩]⟩ rfl rfl

/-- C2 counterexample: a fanbox fetch(newer, 1) on a fresh subscription (no
tail yet) is downgraded to older but still honors the count limit: it yields
one post where the unlimited call yields eleven, so the count is applied and
the call does stop early because of n, contrary to the claim. -/
theorem claim_C2_counterexample :
    Fanbox.yieldsOf
      (Fanbox.fetch feedA .newer (some 1) true ⟨none, none, none⟩).tr = [100] ∧
    (Fanbox.yieldsOf
      (Fanbox.fetch feedA .newer none true ⟨none, none, none⟩).tr).length = 11 := by
  decide

/-- C2 amended: a fanbox fetch(newer, n) with no tail is downgraded to an
older fetch that keeps n in effect; with a tail present, n is discarded and
forced unbounded; fantia honors n (as a bound on source posts iterated) in
every direction. -/
theorem claim_C2_thm :
    (∀ (feed : List Fanbox.Post) (n : Option Nat) (hasSub : Bool)
      (st : Fanbox.State), st.tail_id = none →
      Fanbox.fetch feed .newer n hasSub st = Fanbox.fetch feed .older n hasSub st) ∧
    (∀ (feed : List Fanbox.Post) (n : Option Nat) (hasSub : Bool)
      (st : Fanbox.State), st.tail_id ≠ none →
      Fanbox.fetch feed .newer n hasSub st =
        Fanbox.fetch feed .newer none hasSub st) ∧
    (∀ (feed : List Fantia.Post) (dir : FetchDirection) (k : Nat) (hasSub : Bool)
      (st : Fantia.State),
      (Fantia.updatesOf (Fantia.fetch feed dir (some k) hasSub st).1).length ≤ k) := by
  refine ⟨?_, ?_, ?_⟩
  · intro feed n hasSub st h
    unfold Fanbox.fetch Fanbox.fetchCore Fanbox.fetchDowngrade
    rw [if_pos h]
  · intro feed n hasSub st h
    unfold Fanbox.fetch Fanbox.fetchCore Fanbox.fetchDowngrade
    rw [if_neg h, if_neg h]
  · intro feed dir k hasSub st
    unfold Fantia.fetch
    cases hinit : Fantia.iterInit feed
        (if st.tail_id = none then FetchDirection.older else dir) st with
    | none =>
      simp only [hinit]
      cases hasSub <;> simp [Fantia.updatesOf]
    | some ps =>
      simp only [hinit]
      have hb := Fantia.fetchLoop_updates_bound feed
        (if st.tail_id = none then FetchDirection.older else dir)
        (feed.length + 1) ps.1 k ps.2
      cases hasSub <;>
        simp only [Fantia.updatesOf, List.filterMap_append, List.length_append,
          if_true, if_false, Bool.false_eq_true] <;>
        simpa [Fantia.updatesOf] using hb

/-- C2 witness: the downgrade equation applied to the concrete feed shows
the newer call with no tail equal to the older call with the same count. -/
theorem claim_C2_witness :
    Fanbox.fetch feedA .newer (some 1) true ⟨none, none, none⟩ =
      Fanbox.fetch feedA .older (some 1) true ⟨none, none, none⟩ :=
  claim_C2_thm.1 feedA (some 1) true ⟨none, none, none⟩ rfl

/-- C4 counterexample: a fantia post materializing into two records yields
both before a single commit (so not every yielded item is followed by its
own commit), and the fetch ends with the cursor persist staged on the
session with no commit after it. -/
theorem claim_C4_counterexample :
    Fantia.yieldCommitOk
      (Fantia.fetch [⟨1, 2⟩] .newer none true ⟨none, none⟩).1 = false ∧
    (Fantia.fetch [⟨1, 2⟩] .newer none true ⟨none, none⟩).1 =
      [⟨Fantia.Ev.yield 1 0, ⟨some 1, some 1⟩⟩,
       ⟨Fantia.Ev.yield 1 1, ⟨some 1, some 1⟩⟩,
       ⟨Fantia.Ev.commit, ⟨some 1, some 1⟩⟩,
       ⟨Fantia.Ev.update 1, ⟨some 1, some 1⟩⟩,
       ⟨Fantia.Ev.persist ⟨some 1, some 1⟩, ⟨some 1, some 1⟩⟩] := by
  decide

/-- C4 amended: in fanbox every yielded item is immediately followed by a
commit and the fetch ends, in every direction, with the cursor persisted
onto the subscription and a final commit; in fantia the commit comes once
per source post (covering all records that post yields) and the fetch ends
with the cursor persist merely staged on the session, the final commit being
the caller's. -/
theorem claim_C4_thm :
    (∀ (feed : List Fanbox.Post) (dir : FetchDirection) (n : Option Nat)
      (hasSub : Bool) (st : Fanbox.State),
      Fanbox.yieldCommitOk (Fanbox.fetch feed dir n hasSub st).tr = true) ∧
    (∀ (feed : List Fanbox.Post) (dir : FetchDirection) (n : Option Nat)
      (st : Fanbox.State),
      (Fanbox.fetch feed dir n true st).tr =
        Fanbox.insertCommits (Fanbox.fetchCore feed dir n st).tr ++
        [⟨Fanbox.Ev.persist (Fanbox.fetch feed dir n true st).st,
          (Fanbox.fetch feed dir n true st).st⟩,
         ⟨Fanbox.Ev.commit, (Fanbox.fetch feed dir n true st).st⟩]) ∧
    (∀ (feed : List Fantia.Post) (dir : FetchDirection) (n : Option Nat)
      (st : Fantia.State),
      (Fantia.fetch feed dir n true st).1.getLast? =
        some ⟨Fantia.Ev.persist (Fantia.fetch feed dir n true st).2,
          (Fantia.fetch feed dir n true st).2⟩) := by
  refine ⟨?_, ?_, ?_⟩
  · exact Fanbox.fetch_yieldCommitOk
  · intro feed dir n st
    exact Fanbox.fetch_tr_eq feed dir n true st
  · intro feed dir n st
    unfold Fantia.fetch
    cases hinit : Fantia.iterInit feed
        (if st.tail_id = none then FetchDirection.older else dir) st with
    | none => simp [hinit]
    | some ps => simp [hinit, List.getLast?_concat]

/-- C5: the fanbox maxId request parameter is doubly decremented on every
page after the first of an older fetch, skipping a post.  On the feed of
consecutive ids 100..89, the first-ever fetch requests the second page with
maxId 89 although the last-seen post id is 91 (the claim requires 90), so
post 90 — present and accessible in the feed — is never yielded; the
timestamp parameter is correctly a single second lower (90 seconds), and a
fresh older fetch from a stored tail of 95 correctly requests maxId 94 and
datetime 94. -/
theorem claim_C5_thm :
    Fanbox.requestsOf
      (Fanbox.fetch feedA .older none true ⟨none, none, none⟩).tr =
      [(none, none, 10), (some 89, some 90, 10)] ∧
    Fanbox.yieldsOf (Fanbox.fetch feedA .older none true ⟨none, none, none⟩).tr =
      [100, 99, 98, 97, 96, 95, 94, 93, 92, 91, 89] ∧
    (⟨90, 90, true⟩ : Fanbox.Post) ∈ feedA ∧
    Fanbox.requestsOf
      (Fanbox.fetch feedA .older none true ⟨some 100, some 95, some 95⟩).tr =
      [(some 94, some 94, 10)] := by
  decide

/-- C6: inaccessible items are filtered out of the yielded sequence —
the fanbox yields are exactly the processed posts that have a body, the
twitter yields exactly the processed tweets that have content — while the
cursor still advances past them: in the older direction every processed
item, accessible or not, becomes the new tail the moment it is passed. -/
theorem claim_C6_thm :
    (∀ (feed : List Fanbox.Post) (dir : FetchDirection) (n : Option Nat)
      (hasSub : Bool) (st : Fanbox.State),
      Fanbox.yieldsOf (Fanbox.fetch feed dir n hasSub st).tr =
        ((Fanbox.processedOf (Fanbox.fetch feed dir n hasSub st).tr).filter
          (fun p => p.hasBody)).map (fun p => p.id)) ∧
    (∀ (feed : List Fanbox.Post) (n : Option Nat) (hasSub : Bool)
      (st : Fanbox.State),
      ∀ e ∈ (Fanbox.fetch feed .older n hasSub st).tr, ∀ p,
        e.ev = Fanbox.Ev.processed p → e.st.tail_id = some p.id) ∧
    (∀ (feed : List Twitter.Tweet) (dir : FetchDirection) (n : Option Nat)
      (hasSub : Bool) (st : Twitter.State),
      Twitter.yieldsOf (Twitter.fetch feed dir n hasSub st).1 =
        ((Twitter.processedOf (Twitter.fetch feed dir n hasSub st).1).filter
          (fun t => t.hasContent)).map (fun t => t.id)) ∧
    (∀ (feed : List Twitter.Tweet) (n : Option Nat) (hasSub : Bool)
      (st : Twitter.State),
      ∀ e ∈ (Twitter.fetch feed .older n hasSub st).1, ∀ t,
        e.ev = Twitter.Ev.processed t → e.st.tail_id = some t.id) := by
  refine ⟨?_, ?_, ?_, ?_⟩
  · exact Fanbox.fetch_yields_filter
  · intro feed n hasSub st e he p hev
    exact (Fanbox.fetch_older_processed_tail feed n hasSub st e he p hev).1
  · exact Twitter.tw_fetch_yields_filter
  · exact Twitter.tw_fetch_older_processed_tail

/-- C6 witness: in a fanbox older fetch over a feed whose middle post is
paywalled, the bodyless post 9 is absent from the yields yet its processing
entry carries the tail advanced to 9. -/
theorem claim_C6_witness :
    (⟨Fanbox.Ev.processed ⟨9, 9, false⟩,
      ⟨none, some 9, some 9⟩⟩ : Fanbox.Entry).st.tail_id = some 9 ∧
    Fanbox.yieldsOf (Fanbox.fetch feedB .older none true ⟨none, none, none⟩).tr =
      [10, 8] := by
  constructor
  · exact claim_C6_thm.2.1 feedB none true ⟨none, none, none⟩
      ⟨Fanbox.Ev.processed ⟨9, 9, false⟩, ⟨none, some 9, some 9⟩⟩
      (by decide) ⟨9, 9, false⟩ rfl
  · rw [claim_C6_thm.1 feedB .older none true ⟨none, none, none⟩]
    decide

/-- C3: during an older fetch the tail follows every processed item — each
processing step leaves tail_id (and tail_datetime in fanbox) at exactly that
item, so an interruption right after the k-th item leaves the tail there —
and the tail moves strictly toward older items: within a fetch the processed
ids strictly decrease (over a strictly descending remote feed), and every
item processed by a fetch that started from a stored tail is strictly older
than that tail. -/
theorem claim_C3_thm :
    (∀ (feed : List Fanbox.Post) (n : Option Nat) (hasSub : Bool)
      (st : Fanbox.State),
      ∀ e ∈ (Fanbox.fetch feed .older n hasSub st).tr, ∀ p,
        e.ev = Fanbox.Ev.processed p →
        e.st.tail_id = some p.id ∧
        e.st.tail_datetime = some p.publishedDatetime) ∧
    (∀ (feed : List Fanbox.Post) (n : Option Nat) (hasSub : Bool)
      (st : Fanbox.State),
      feed.Pairwise (fun a b => b.id < a.id) →
      (Fanbox.processedOf (Fanbox.fetch feed .older n hasSub st).tr).Pairwise
        (fun a b => b.id < a.id)) ∧
    (∀ (feed : List Fanbox.Post) (n : Option Nat) (hasSub : Bool)
      (st : Fanbox.State) (t : Int), st.tail_id = some t →
      ∀ p ∈ Fanbox.processedOf (Fanbox.fetch feed .older n hasSub st).tr,
        p.id < t) ∧
    (∀ (feed : List Twitter.Tweet) (n : Option Nat) (hasSub : Bool)
      (st : Twitter.State),
      ∀ e ∈ (Twitter.fetch feed .older n hasSub st).1, ∀ t,
        e.ev = Twitter.Ev.processed t → e.st.tail_id = some t.id) ∧
    (∀ (feed : List Twitter.Tweet) (n : Option Nat) (hasSub : Bool)
      (st : Twitter.State) (t : Int), st.tail_id = some t →
      ∀ tw ∈ Twitter.processedOf (Twitter.fetch feed .older n hasSub st).1,
        tw.id < t) :=
  ⟨Fanbox.fetch_older_processed_tail,
   Fanbox.fetch_older_processed_pairwise,
   Fanbox.fetch_older_processed_bound,
   Twitter.tw_fetch_older_processed_tail,
   Twitter.tw_fetch_older_processed_bound⟩

/-- C3 witness: an older fanbox fetch from a stored tail of 21 over the
two-post feed leaves, at the processing entry of post 19, the tail at 19
with its timestamp, and both processed posts are strictly older than 21. -/
theorem claim_C3_witness :
    (⟨Fanbox.Ev.processed ⟨19, 19, true⟩,
      ⟨none, some 19, some 19⟩⟩ : Fanbox.Entry).st.tail_id = some 19 ∧
    (⟨Fanbox.Ev.processed ⟨19, 19, true⟩,
      ⟨none, some 19, some 19⟩⟩ : Fanbox.Entry).st.tail_datetime = some 19 ∧
    (20 : Int) < 21 ∧
    (Fanbox.processedOf
      (Fanbox.fetch feedC .older none true ⟨none, some 21, some 21⟩).tr).Pairwise
      (fun a b => b.id < a.id) := by
  refine ⟨?_, ?_, ?_, ?_⟩
  · exact (claim_C3_thm.1 feedC none true ⟨none, some 21, some 21⟩
      ⟨Fanbox.Ev.processed ⟨19, 19, true⟩, ⟨none, some 19, some 19⟩⟩
      (by decide) ⟨19, 19, true⟩ rfl).1
  · exact (claim_C3_thm.1 feedC none true ⟨none, some 21, some 21⟩
      ⟨Fanbox.Ev.processed ⟨19, 19, true⟩, ⟨none, some 19, some 19⟩⟩
      (by decide) ⟨19, 19, true⟩ rfl).2
  · exact claim_C3_thm.2.2.1 feedC none true ⟨none, some 21, some 21⟩ 21 rfl
      ⟨20, 20, true⟩ (by decide)
  · exact claim_C3_thm.2.1 feedC none true ⟨none, some 21, some 21⟩ (by decide)

/-- C1 counterexample: pixiv's IllustIterator advances head_id during the
item loop, not only at completion: with head 100 and tail 50 and two new
posts 101 and 102, the in-memory head is already 101 after the first item is
processed (trace position two of seven), so a fetch interrupted there — for
example by an error while fetching post 102 — does not leave head_id at its
pre-fetch value of 100. -/
theorem claim_C1_counterexample :
    ((Pixiv.fetch [101, 102] .newer none true ⟨some 100, some 50⟩).1.take 3).map
      (fun e => e.st.head_id) = [some 100, some 100, some 101] ∧
    (Pixiv.fetch [101, 102] .newer none true ⟨some 100, some 50⟩).1.length = 7 := by
  decide

/-- C1 amended: in fanbox the generator part of a fetch never changes
head_id (so an interruption anywhere leaves it untouched), and a completed
newer fetch with a stored tail sets head_id to the first post of the first
page (keeping the old value when the page is empty), hence head_id never
decreases as long as the feed still reaches the stored head; in pixiv's
IllustIterator head_id is updated incrementally during the loop, but at
every point of a newer fetch (interrupted or not) it stays at least the
head it started from. -/
theorem claim_C1_thm :
    (∀ (feed : List Fanbox.Post) (dir : FetchDirection) (n : Option Nat)
      (st : Fanbox.State),
      ∀ e ∈ Fanbox.insertCommits (Fanbox.fetchCore feed dir n st).tr,
        e.st.head_id = st.head_id) ∧
    (∀ (feed : List Fanbox.Post) (n : Option Nat) (hasSub : Bool)
      (st : Fanbox.State) (t : Int), st.tail_id = some t →
      (Fanbox.fetch feed .newer n hasSub st).st.head_id =
        (match feed.take Fanbox.PAGE_LIMIT with
          | [] => st.head_id
          | p :: _ => some p.id)) ∧
    (∀ (feed : List Fanbox.Post) (n : Option Nat) (hasSub : Bool)
      (st : Fanbox.State) (h t : Int),
      st.head_id = some h → st.tail_id = some t →
      (∀ p0, feed.head? = some p0 → h ≤ p0.id) →
      ∀ h2, (Fanbox.fetch feed .newer n hasSub st).st.head_id = some h2 →
        h ≤ h2) ∧
    (∀ (api : List Int) (n : Option Nat) (hasSub : Bool) (h t : Int),
      ∀ e ∈ (Pixiv.fetch api .newer n hasSub ⟨some h, some t⟩).1,
        ∀ h2, e.st.head_id = some h2 → h ≤ h2) := by
  refine ⟨?_, ?_, ?_, ?_⟩
  · intro feed dir n st
    exact Fanbox.insertCommits_state_pred (fun s => s.head_id = st.head_id) _
      (Fanbox.fetchCore_head feed dir n st).1
  · intro feed n hasSub st t ht
    rw [Fanbox.fetch_st_head, Fanbox.fetchCore_firstId_newer feed n st t ht]
    cases feed.take Fanbox.PAGE_LIMIT <;> simp
  · intro feed n hasSub st h t hh ht hfeed h2 hh2
    rw [Fanbox.fetch_st_head, Fanbox.fetchCore_firstId_newer feed n st t ht]
      at hh2
    cases hfd : feed with
    | nil => rw [hfd] at hh2; simp at hh2; rw [hh] at hh2; simp at hh2; omega
    | cons p0 rest =>
      have hle := hfeed p0 (by rw [hfd]; rfl)
      rw [hfd] at hh2
      rw [show (p0 :: rest).take Fanbox.PAGE_LIMIT = p0 :: rest.take 9 from rfl]
        at hh2
      simp at hh2
      omega
  · exact Pixiv.fetch_head_ge

/-- C1 witness: a completed fanbox newer fetch from head 15 and tail 10 over
the feed whose newest post is 20 ends with head_id 20. -/
theorem claim_C1_witness :
    (Fanbox.fetch feedC .newer none true ⟨some 15, some 10, some 10⟩).st.head_id
      = some 20 := by
  have := claim_C1_thm.2.1 feedC none true ⟨some 15, some 10, some 10⟩ 10 rfl
  rw [this]
  decide

end HoorduPlugins
